import Mathlib

/-!
Shallow embedding of src/translate_V2.py: a merged-region-aware Excel
translation pipeline.  Cell grids are total functions from coordinates,
workbook state is passed explicitly, the external translator is a
parameter `tr : String → Option String` (`none` = the collaborator
raises), and the run-scoped translation cache plus a ghost log of
outbound translator calls form an explicit `WalkState`.
-/

namespace ExcelV2

/-- Grid coordinate `(row, column)`, 1-indexed as in openpyxl. -/
abbrev Coord := Nat × Nat

/-- Python `str.strip()`: drop leading and trailing whitespace characters. -/
def pyStrip (s : String) : String :=
  ⟨((s.data.dropWhile Char.isWhitespace).reverse.dropWhile Char.isWhitespace).reverse⟩

/-- Python `str.split('\n')`: split a character list at every newline, keeping empties. -/
def splitNL : List Char → List (List Char)
  | [] => [[]]
  | a :: rest =>
    let r := splitNL rest
    if a = '\n' then [] :: r
    else
      match r with
      | [] => [[a]]
      | h :: t => (a :: h) :: t

/-- Source line 141: `max(len(line) for line in cell.value.split('\n'))`. -/
def maxLineLen (s : String) : Nat :=
  ((splitNL s.data).map List.length).foldl Nat.max 0

/-- Source line 108: `re.search(r'[一-鿿]', cell.value)` as a Bool. -/
def hasCJK (s : String) : Bool :=
  s.data.any (fun c => decide (0x4e00 ≤ c.toNat ∧ c.toNat ≤ 0x9fff))

/-- Python truthiness of a nonempty string (`cell.value and ...`). -/
def strNonempty (s : String) : Bool := !s.data.isEmpty

/-- Tagged cell value: text, number, blank (None) or any other object. -/
inductive CellVal where
  | text (s : String)
  | num (n : Int)
  | blank
  | other
deriving DecidableEq

/-- Python truthiness of a cell value (`if cell.value:` at source line 131). -/
def truthy : CellVal → Bool
  | .text s => strNonempty s
  | .num n => n != 0
  | .blank => false
  | .other => true

/-- Cell presentation: openpyxl `Alignment(wrapText=..., vertical=...)`. -/
structure Alignment where
  wrapText : Bool
  vertical : Option String
deriving DecidableEq

/-- Merged rectangular region (`merged_range` with min/max row/col). -/
structure MergedRange where
  minRow : Nat
  minCol : Nat
  maxRow : Nat
  maxCol : Nat
deriving DecidableEq

/-- Source lines 77-79: every `(row, col)` of the region's rectangle,
row-major, matching the nested `range(min_row, max_row + 1)` loops. -/
def MergedRange.coords (r : MergedRange) : List Coord :=
  (List.range' r.minRow (r.maxRow + 1 - r.minRow)).flatMap
    (fun row => (List.range' r.minCol (r.maxCol + 1 - r.minCol)).map (fun col => (row, col)))

/-- Source lines 75-79: the `merged_cells` coverage set (as a list; only
membership matters). -/
def buildCovered (rs : List MergedRange) : List Coord :=
  rs.flatMap MergedRange.coords

/-- One dict assignment `merged_master_cells[(row, col)] = master_cell`. -/
def setMaster (m : Coord → Option Coord) (p q : Coord) : Coord → Option Coord :=
  fun x => if x = p then some q else m x

/-- Source lines 83-87: record the region's master (top-left) for every
coordinate of one region, overwriting earlier entries. -/
def insertRegion (m : Coord → Option Coord) (r : MergedRange) : Coord → Option Coord :=
  r.coords.foldl (fun acc p => setMaster acc p (r.minRow, r.minCol)) m

/-- Source lines 82-87: the full `merged_master_cells` mapping, built
region by region in input order. -/
def buildMasterOf (rs : List MergedRange) : Coord → Option Coord :=
  rs.foldl insertRegion (fun _ => none)

/-- One worksheet: bounds, merged regions, and per-coordinate value,
presentation and per-column width metadata. -/
structure Sheet where
  maxRow : Nat
  maxCol : Nat
  mergedRanges : List MergedRange
  val : Coord → CellVal
  align : Coord → Alignment
  width : Nat → Option Nat

/-- A workbook: sheets with their names, in `sheetnames` order. -/
structure Workbook where
  sheets : List (String × Sheet)

/-- Run-scoped mutable state: the translation cache (an association list,
newest first, mirroring the dict) and a ghost log of external translator
invocations `(sheet index, coordinate, trimmed text)` in call order. -/
structure WalkState where
  cache : List (String × String)
  calls : List (Nat × Coord × String)

def initState : WalkState := ⟨[], []⟩

/-- Dict lookup `translation_cache[text]`. -/
def cacheLookup : List (String × String) → String → Option String
  | [], _ => none
  | (k, v) :: rest, t => if k = t then some v else cacheLookup rest t

/-- Source lines 37-64, `translate_text`: strip, consult the cache, else
call the translator; on success compose `translated + "\n" + text`,
cache it; on failure return the stripped text uncached.  The ghost call
log records every external invocation. -/
def translate_text (tr : String → Option String) (si : Nat) (p : Coord)
    (st : WalkState) (text : String) : String × WalkState :=
  if text.data.isEmpty then (text, st)
  else
    let t := pyStrip text
    match cacheLookup st.cache t with
    | some r => (r, st)
    | none =>
      match tr t with
      | some translated =>
        let result := translated ++ "\n" ++ t
        (result, ⟨(t, result) :: st.cache, st.calls ++ [(si, p, t)]⟩)
      | none => (t, ⟨st.cache, st.calls ++ [(si, p, t)]⟩)

/-- Pointwise value update (assignment `cell.value = ...`). -/
def updVal (f : Coord → CellVal) (p : Coord) (v : CellVal) : Coord → CellVal :=
  fun q => if q = p then v else f q

/-- Pointwise presentation update (assignment `cell.alignment = ...`). -/
def updAlign (f : Coord → Alignment) (p : Coord) (a : Alignment) : Coord → Alignment :=
  fun q => if q = p then a else f q

/-- Pointwise column-width update (`sheet.column_dimensions[letter].width = w`). -/
def updWidth (f : Nat → Option Nat) (c : Nat) (w : Nat) : Nat → Option Nat :=
  fun d => if d = c then some w else f d

/-- Source line 106-108 qualification: the value is a nonempty string
containing a CJK code point. -/
def qualifies : CellVal → Bool
  | .text s => strNonempty s && hasCJK s
  | _ => false

/-- Source lines 93-103 skip rule: a coordinate is processed when it is
outside every merged region, or is the (surviving) master of its region. -/
def processedAt (covered : List Coord) (mo : Coord → Option Coord) (p : Coord) : Bool :=
  if p ∈ covered then
    match mo p with
    | some m => decide (p = m)
    | none => false
  else true

/-- Source lines 106-118: qualifying text is translated, the value
overwritten, and wrap + top alignment applied. -/
def translateCellAt (tr : String → Option String) (si : Nat) (sh : Sheet)
    (st : WalkState) (p : Coord) : Sheet × WalkState :=
  match sh.val p with
  | .text s =>
    if strNonempty s && hasCJK s then
      let r := translate_text tr si p st s
      ({ sh with val := updVal sh.val p (.text r.1),
                 align := updAlign sh.align p ⟨true, some "top"⟩ }, r.2)
    else (sh, st)
  | _ => (sh, st)

/-- One traversal step of the all-sheets walker (skip rule + cell body). -/
def processCell (tr : String → Option String) (si : Nat) (covered : List Coord)
    (mo : Coord → Option Coord) (acc : Sheet × WalkState) (p : Coord) : Sheet × WalkState :=
  if processedAt covered mo p then translateCellAt tr si acc.1 acc.2 p else acc

/-- Source lines 90-91: row-major traversal `rows 1..maxRow × cols 1..maxCol`. -/
def sheetCoords (sh : Sheet) : List Coord :=
  (List.range' 1 sh.maxRow).flatMap
    (fun r => (List.range' 1 sh.maxCol).map (fun c => (r, c)))

/-- Source lines 90-122: the full translation pass over one sheet. -/
def walkSheet (tr : String → Option String) (si : Nat) (sh : Sheet)
    (st : WalkState) : Sheet × WalkState :=
  (sheetCoords sh).foldl
    (processCell tr si (buildCovered sh.mergedRanges) (buildMasterOf sh.mergedRanges)) (sh, st)

/-- Source lines 131-137 layout skip rule: a truthy cell is ignored when
it is a covered non-master coordinate (fall-through otherwise). -/
def layoutSkip (covered : List Coord) (mo : Coord → Option Coord) (p : Coord) : Bool :=
  if p ∈ covered then
    match mo p with
    | some m => decide (m ≠ p)
    | none => false
  else false

/-- Source lines 126-143: maximum single-line length over the column's
eligible textual cells. -/
def columnMaxLen (maxRow : Nat) (ranges : List MergedRange)
    (valf : Coord → CellVal) (c : Nat) : Nat :=
  (List.range' 1 maxRow).foldl (fun maxLength r =>
    let v := valf (r, c)
    if truthy v then
      if layoutSkip (buildCovered ranges) (buildMasterOf ranges) (r, c) then maxLength
      else
        match v with
        | .text s => if maxLength < maxLineLen s then maxLineLen s else maxLength
        | _ => maxLength
    else maxLength) 0

/-- Source lines 145-148: width adjustment for one column,
`min(max_length + 2, 50)` only when `max_length > 0`. -/
def layoutCol (s : Sheet) (c : Nat) : Sheet :=
  let L := columnMaxLen s.maxRow s.mergedRanges s.val c
  if 0 < L then { s with width := updWidth s.width c (min (L + 2) 50) } else s

/-- Source lines 125-148: the per-column layout pass over columns 1..maxCol. -/
def layoutSheet (sh : Sheet) : Sheet :=
  (List.range' 1 sh.maxCol).foldl layoutCol sh

/-- One sheet of `translate_excel_sheets`: translation pass then layout pass. -/
def processSheet (tr : String → Option String) (si : Nat) (sh : Sheet)
    (st : WalkState) : Sheet × WalkState :=
  let r := walkSheet tr si sh st
  (layoutSheet r.1, r.2)

/-- Source line 67: process every sheet in order, threading the shared cache. -/
def runSheets (tr : String → Option String) :
    Nat → List (String × Sheet) → WalkState → List (String × Sheet) × WalkState
  | _, [], st => ([], st)
  | si, e :: rest, st =>
    let r := processSheet tr si e.2 st
    let rr := runSheets tr (si + 1) rest r.2
    ((e.1, r.1) :: rr.1, rr.2)

/-- Source lines 8-158, `translate_excel_sheets`: the all-sheets entry
operation (workbook in, mutated workbook plus final cache/call state out). -/
def translate_excel_sheets (tr : String → Option String) (wb : Workbook) :
    Workbook × WalkState :=
  let r := runSheets tr 0 wb.sheets initState
  (⟨r.1⟩, r.2)

/-- Source lines 221-241: the selected-sheets per-cell body — cache hit
writes the cached value only; a miss translates, writes, sets
wrap-only alignment; failure mutates nothing. -/
def translateCellAtSel (tr : String → Option String) (si : Nat) (sh : Sheet)
    (st : WalkState) (p : Coord) : Sheet × WalkState :=
  match sh.val p with
  | .text s =>
    if strNonempty s && hasCJK s then
      let t := pyStrip s
      match cacheLookup st.cache t with
      | some r => ({ sh with val := updVal sh.val p (.text r) }, st)
      | none =>
        match tr t with
        | some translated =>
          let result := translated ++ "\n" ++ t
          ({ sh with val := updVal sh.val p (.text result),
                     align := updAlign sh.align p ⟨true, none⟩ },
           ⟨(t, result) :: st.cache, st.calls ++ [(si, p, t)]⟩)
        | none => (sh, ⟨st.cache, st.calls ++ [(si, p, t)]⟩)
    else (sh, st)
  | _ => (sh, st)

/-- One traversal step of the selected-sheets walker (same skip rule). -/
def processCellSel (tr : String → Option String) (si : Nat) (covered : List Coord)
    (mo : Coord → Option Coord) (acc : Sheet × WalkState) (p : Coord) : Sheet × WalkState :=
  if processedAt covered mo p then translateCellAtSel tr si acc.1 acc.2 p else acc

/-- Source lines 208-241: the selected-sheets translation pass (no layout pass). -/
def walkSheetSel (tr : String → Option String) (si : Nat) (sh : Sheet)
    (st : WalkState) : Sheet × WalkState :=
  (sheetCoords sh).foldl
    (processCellSel tr si (buildCovered sh.mergedRanges) (buildMasterOf sh.mergedRanges)) (sh, st)

/-- Lookup of `workbook[sheet_name]` as the index of the first sheet with
that name. -/
def findSheet : List (String × Sheet) → String → Option Nat
  | [], _ => none
  | e :: rest, nm => if e.1 = nm then some 0 else (findSheet rest nm).map (· + 1)

/-- Source lines 187-241: one selected sheet name — look the sheet up,
walk it when present, silently skip unknown names. -/
def selStep (tr : String → Option String) (acc : Workbook × WalkState) (nm : String) :
    Workbook × WalkState :=
  match findSheet acc.1.sheets nm with
  | some i =>
    match acc.1.sheets.get? i with
    | some e =>
      let r := walkSheetSel tr i e.2 acc.2
      (⟨acc.1.sheets.set i (nm, r.1)⟩, r.2)
    | none => acc
  | none => acc

/-- Source lines 161-244, `translate_selected_sheets`: process the listed
names in order, silently skipping unknown names; no layout pass. -/
def translate_selected_sheets (tr : String → Option String) (wb : Workbook)
    (names : List String) : Workbook × WalkState :=
  names.foldl (selStep tr) (wb, initState)

/-- Value of cell `p` on sheet `i` of a workbook (blank when out of range). -/
def getSheetVal (wb : Workbook) (i : Nat) (p : Coord) : CellVal :=
  match wb.sheets.get? i with
  | some e => e.2.val p
  | none => .blank

/-- Presentation of cell `p` on sheet `i` of a workbook. -/
def getSheetAlign (wb : Workbook) (i : Nat) (p : Coord) : Alignment :=
  match wb.sheets.get? i with
  | some e => e.2.align p
  | none => ⟨false, none⟩

/-- Width of column `c` on sheet `i` of a workbook. -/
def getSheetWidth (wb : Workbook) (i : Nat) (c : Nat) : Option Nat :=
  match wb.sheets.get? i with
  | some e => e.2.width c
  | none => none

/-- Composed bilingual outcome of one translation attempt on text `s`:
the bilingual string on success, the stripped text on failure. -/
def specTranslate (tr : String → Option String) (s : String) : String :=
  match tr (pyStrip s) with
  | some translated => translated ++ "\n" ++ pyStrip s
  | none => pyStrip s

/-- Text of a textual cell value (empty for the other kinds). -/
def textOf : CellVal → String
  | .text s => s
  | _ => ""

/-- A coordinate is mutated by the walker exactly when it is in range,
passes the skip rule, and its value qualifies. -/
def cellCond (sh : Sheet) (p : Coord) : Bool :=
  decide (p ∈ sheetCoords sh) &&
    processedAt (buildCovered sh.mergedRanges) (buildMasterOf sh.mergedRanges) p &&
    qualifies (sh.val p)

/-- State-independent description of a cell's value after the all-sheets
translation pass. -/
def specNewVal (tr : String → Option String) (sh : Sheet) (p : Coord) : CellVal :=
  if cellCond sh p then .text (specTranslate tr (textOf (sh.val p))) else sh.val p

/-- State-independent description of a cell's value after the
selected-sheets translation pass (failures leave the value unchanged). -/
def specNewValSel (tr : String → Option String) (sh : Sheet) (p : Coord) : CellVal :=
  if cellCond sh p then
    match tr (pyStrip (textOf (sh.val p))) with
    | some translated => .text (translated ++ "\n" ++ pyStrip (textOf (sh.val p)))
    | none => sh.val p
  else sh.val p

/-- Every cache entry is the bilingual composition of a successful
translation of its key. -/
def CacheOK (tr : String → Option String) (st : WalkState) : Prop :=
  ∀ t r, (t, r) ∈ st.cache → ∃ translated, tr t = some translated ∧ r = translated ++ "\n" ++ t

/-- Keys currently present in the cache. -/
def cacheKeys (st : WalkState) : List String := st.cache.map Prod.fst

/-- Number of external translator invocations for text `t` so far. -/
def callsFor (st : WalkState) (t : String) : Nat :=
  st.calls.countP (fun e => e.2.2 == t)

/-- For a text the translator succeeds on: it has been called exactly once
iff it is cached, and never more than once. -/
def OnceInv (t : String) (st : WalkState) : Prop :=
  (t ∈ cacheKeys st → callsFor st t = 1) ∧ (t ∉ cacheKeys st → callsFor st t = 0)

/-- Merged regions are pairwise non-overlapping (the spec's assumed invariant). -/
def RangesDisjoint (rs : List MergedRange) : Prop :=
  List.Pairwise (fun a b => ∀ x : Coord, x ∈ a.coords → x ∉ b.coords) rs

instance (rs : List MergedRange) : Decidable (RangesDisjoint rs) :=
  inferInstanceAs (Decidable (List.Pairwise _ rs))

/-! ### RegionIndex lemmas -/

theorem mem_coords {r : MergedRange} {p : Coord} :
    p ∈ r.coords ↔ r.minRow ≤ p.1 ∧ p.1 ≤ r.maxRow ∧ r.minCol ≤ p.2 ∧ p.2 ≤ r.maxCol := by
  cases p with
  | mk a b =>
    simp only [MergedRange.coords, List.mem_flatMap, List.mem_map, List.mem_range'_1,
      Prod.mk.injEq]
    constructor
    · rintro ⟨row, ⟨h1, h2⟩, col, ⟨h3, h4⟩, h5, h6⟩
      subst h5; subst h6
      refine ⟨h1, by omega, h3, by omega⟩
    · rintro ⟨h1, h2, h3, h4⟩
      exact ⟨a, ⟨h1, by omega⟩, b, ⟨h3, by omega⟩, rfl, rfl⟩

theorem foldl_setMaster (l : List Coord) (q : Coord) (m : Coord → Option Coord) (x : Coord) :
    (l.foldl (fun acc p => setMaster acc p q) m) x = if x ∈ l then some q else m x := by
  induction l generalizing m with
  | nil => simp
  | cons a t ih =>
    simp only [List.foldl_cons, ih, setMaster, List.mem_cons]
    by_cases hx : x ∈ t
    · simp [hx]
    · by_cases hxa : x = a
      · simp [hx, hxa]
      · simp [hx, hxa]

theorem insertRegion_apply (m : Coord → Option Coord) (r : MergedRange) (x : Coord) :
    insertRegion m r x = if x ∈ r.coords then some (r.minRow, r.minCol) else m x :=
  foldl_setMaster _ _ _ _

theorem foldl_insertRegion_not_mem {rs : List MergedRange} {x : Coord}
    (h : ∀ r ∈ rs, x ∉ r.coords) (m : Coord → Option Coord) :
    (rs.foldl insertRegion m) x = m x := by
  induction rs generalizing m with
  | nil => rfl
  | cons a t ih =>
    rw [List.foldl_cons, ih (fun r hr => h r (List.mem_cons_of_mem a hr)),
      insertRegion_apply, if_neg (h a (List.mem_cons_self a t))]

theorem foldl_insertRegion_isSome (rs : List MergedRange) (m : Coord → Option Coord)
    (x : Coord) :
    ((rs.foldl insertRegion m) x).isSome = true ↔
      (∃ r ∈ rs, x ∈ r.coords) ∨ (m x).isSome = true := by
  induction rs generalizing m with
  | nil => simp
  | cons a t ih =>
    rw [List.foldl_cons, ih]
    constructor
    · rintro (⟨r, hr, hxr⟩ | hm)
      · exact Or.inl ⟨r, List.mem_cons_of_mem a hr, hxr⟩
      · rw [insertRegion_apply] at hm
        by_cases hx : x ∈ a.coords
        · exact Or.inl ⟨a, List.mem_cons_self a t, hx⟩
        · rw [if_neg hx] at hm; exact Or.inr hm
    · rintro (⟨r, hr, hxr⟩ | hm)
      · rcases List.mem_cons.mp hr with rfl | hrt
        · right; rw [insertRegion_apply, if_pos hxr]; rfl
        · exact Or.inl ⟨r, hrt, hxr⟩
      · right; rw [insertRegion_apply]
        by_cases hx : x ∈ a.coords
        · rw [if_pos hx]; rfl
        · rwa [if_neg hx]

theorem foldl_insertRegion_last {l₁ l₂ : List MergedRange} {r : MergedRange} {x : Coord}
    (hx : x ∈ r.coords) (h2 : ∀ r' ∈ l₂, x ∉ r'.coords) (m : Coord → Option Coord) :
    ((l₁ ++ r :: l₂).foldl insertRegion m) x = some (r.minRow, r.minCol) := by
  rw [List.foldl_append, List.foldl_cons, foldl_insertRegion_not_mem h2,
    insertRegion_apply, if_pos hx]

theorem foldl_insertRegion_inv {rs : List MergedRange} {m : Coord → Option Coord}
    {x q : Coord} (h : (rs.foldl insertRegion m) x = some q) :
    (∃ r ∈ rs, x ∈ r.coords ∧ q = (r.minRow, r.minCol)) ∨ m x = some q := by
  induction rs generalizing m with
  | nil => exact Or.inr h
  | cons a t ih =>
    rw [List.foldl_cons] at h
    rcases ih h with ⟨r, hr, hxr, hq⟩ | hm
    · exact Or.inl ⟨r, List.mem_cons_of_mem a hr, hxr, hq⟩
    · rw [insertRegion_apply] at hm
      by_cases hx : x ∈ a.coords
      · rw [if_pos hx] at hm
        exact Or.inl ⟨a, List.mem_cons_self a t, hx, (Option.some.inj hm).symm⟩
      · rw [if_neg hx] at hm; exact Or.inr hm

theorem disjoint_master_of_mem {rs : List MergedRange} (hdisj : RangesDisjoint rs)
    {r : MergedRange} (hr : r ∈ rs) {p : Coord} (hp : p ∈ r.coords) :
    buildMasterOf rs p = some (r.minRow, r.minCol) := by
  obtain ⟨l₁, l₂, rfl⟩ := List.append_of_mem hr
  have h2 : ∀ r' ∈ l₂, p ∉ r'.coords := by
    rw [RangesDisjoint, List.pairwise_append] at hdisj
    have := (List.pairwise_cons.mp hdisj.2.1).1
    exact fun r' hr' => this r' hr' p hp
  exact foldl_insertRegion_last hp h2 _

theorem processedAt_of_nonmaster {rs : List MergedRange} (hdisj : RangesDisjoint rs)
    {r : MergedRange} (hr : r ∈ rs) {p : Coord} (hp : p ∈ r.coords)
    (hne : p ≠ (r.minRow, r.minCol)) :
    processedAt (buildCovered rs) (buildMasterOf rs) p = false := by
  have hcov : p ∈ buildCovered rs := by
    rw [buildCovered, List.mem_flatMap]; exact ⟨r, hr, hp⟩
  rw [processedAt, if_pos hcov, disjoint_master_of_mem hdisj hr hp]
  simpa using hne

/-- C4: for every list of pairwise non-overlapping merged regions, the
coverage index maps every covered coordinate to the top-left master of the
region containing it, and the mapping is idempotent: every master
coordinate is its own master. -/
theorem regionIndex_master_idem (rs : List MergedRange) (hdisj : RangesDisjoint rs) :
    (∀ r ∈ rs, ∀ p ∈ r.coords, buildMasterOf rs p = some (r.minRow, r.minCol)) ∧
    (∀ p q : Coord, buildMasterOf rs p = some q → buildMasterOf rs q = some q) := by
  refine ⟨fun r hr p hp => disjoint_master_of_mem hdisj hr hp, fun p q h => ?_⟩
  rcases foldl_insertRegion_inv h with ⟨r, hr, hpr, rfl⟩ | hm
  · have hq : (r.minRow, r.minCol) ∈ r.coords := by
      rw [mem_coords] at hpr ⊢
      omega
    exact disjoint_master_of_mem hdisj hr hq
  · cases hm

def wrs : List MergedRange := [⟨1, 1, 2, 2⟩, ⟨4, 1, 4, 3⟩]

/-- Witness for C4 on two concrete disjoint regions. -/
theorem regionIndex_master_idem_witness :
    buildMasterOf wrs (2, 2) = some (1, 1) ∧ buildMasterOf wrs (1, 1) = some (1, 1) := by
  have h := regionIndex_master_idem wrs (by decide)
  exact ⟨h.1 ⟨1, 1, 2, 2⟩ (by decide) (2, 2) (by decide),
    h.2 (2, 2) (1, 1) (h.1 ⟨1, 1, 2, 2⟩ (by decide) (2, 2) (by decide))⟩

/-- C5: when regions overlap, each shared coordinate is mapped to the master
of the overlapping region that appears later in input order (the later
region's dict assignments overwrite the earlier one's). -/
theorem overlap_later_wins (rs : List MergedRange) (i j : Nat) (ri rj : MergedRange)
    (x : Coord) (hi : rs.get? i = some ri) (hj : rs.get? j = some rj) (hij : i < j)
    (hxi : x ∈ ri.coords) (hxj : x ∈ rj.coords)
    (hlast : ∀ k rk, j < k → rs.get? k = some rk → x ∉ rk.coords) :
    buildMasterOf rs x = some (rj.minRow, rj.minCol) := by
  obtain ⟨hjlen, hget⟩ := List.get?_eq_some.mp hj
  have hsplit : rs = rs.take j ++ rj :: rs.drop (j + 1) := by
    conv_lhs => rw [← List.take_append_drop j rs]
    rw [List.drop_eq_get_cons hjlen, hget]
  have h2 : ∀ r' ∈ rs.drop (j + 1), x ∉ r'.coords := by
    intro r' hr'
    obtain ⟨k, hk⟩ := List.mem_iff_get?.mp hr'
    rw [List.get?_drop] at hk
    exact hlast (j + 1 + k) r' (by omega) hk
  rw [buildMasterOf, hsplit]
  exact foldl_insertRegion_last hxj h2 _

def wrs2 : List MergedRange := [⟨1, 1, 2, 2⟩, ⟨2, 2, 3, 3⟩]

/-- Witness for C5 on two concrete overlapping regions sharing `(2, 2)`. -/
theorem overlap_later_wins_witness : buildMasterOf wrs2 (2, 2) = some (2, 2) :=
  overlap_later_wins wrs2 0 1 ⟨1, 1, 2, 2⟩ ⟨2, 2, 3, 3⟩ (2, 2) rfl rfl (by decide)
    (by decide) (by decide)
    (by
      intro k rk hk hget
      have hnone : wrs2.get? k = none := List.get?_eq_none.mpr (by simp [wrs2]; omega)
      rw [hnone] at hget
      cases hget)

/-- C10: the coverage set built in the first pass and the key set of the
coordinate-to-master mapping built in the second pass coincide (both
enumerate the same rectangles), so every covered coordinate has a master
entry and the fallback skip branch for a covered coordinate without a
master entry is unreachable. -/
theorem covered_iff_masterKey (rs : List MergedRange) :
    ∀ p : Coord, p ∈ buildCovered rs ↔ (buildMasterOf rs p).isSome = true := by
  intro p
  rw [buildCovered, List.mem_flatMap, buildMasterOf, foldl_insertRegion_isSome]
  simp

/-! ### TranslationCache lemmas -/

theorem cacheLookup_mem {l : List (String × String)} {t r : String}
    (h : cacheLookup l t = some r) : (t, r) ∈ l := by
  induction l with
  | nil => cases h
  | cons e rest ih =>
    cases e with
    | mk k v =>
      rw [cacheLookup] at h
      split at h
      · next hk => cases h; subst hk; exact List.mem_cons_self _ _
      · next hk => exact List.mem_cons_of_mem _ (ih h)

theorem cacheLookup_none {l : List (String × String)} {t : String}
    (h : cacheLookup l t = none) : t ∉ l.map Prod.fst := by
  induction l with
  | nil => simp
  | cons e rest ih =>
    cases e with
    | mk k v =>
      rw [cacheLookup] at h
      split at h
      · cases h
      · next hk =>
        simp only [List.map_cons, List.mem_cons]
        rintro (rfl | hm)
        · exact hk rfl
        · exact ih h hm

theorem cacheLookup_some_key {l : List (String × String)} {t r : String}
    (h : cacheLookup l t = some r) : t ∈ l.map Prod.fst := by
  have := cacheLookup_mem h
  exact List.mem_map.mpr ⟨(t, r), this, rfl⟩

theorem translate_text_fst {tr : String → Option String} {st : WalkState}
    (hok : CacheOK tr st) (si : Nat) (p : Coord) {s : String}
    (hs : s.data.isEmpty = false) :
    (translate_text tr si p st s).1 = specTranslate tr s := by
  simp only [translate_text, hs, Bool.false_eq_true, if_false]
  cases hc : cacheLookup st.cache (pyStrip s) with
  | some r =>
    obtain ⟨translated, htr, hr⟩ := hok _ _ (cacheLookup_mem hc)
    simp [specTranslate, htr, hr]
  | none =>
    cases htr : tr (pyStrip s) with
    | some translated => simp [specTranslate, htr]
    | none => simp [specTranslate, htr]

theorem translate_text_cacheOK {tr : String → Option String} {st : WalkState}
    (hok : CacheOK tr st) (si : Nat) (p : Coord) (s : String) :
    CacheOK tr (translate_text tr si p st s).2 := by
  simp only [translate_text]
  split
  · exact hok
  · cases hc : cacheLookup st.cache (pyStrip s) with
    | some r => exact hok
    | none =>
      cases htr : tr (pyStrip s) with
      | some translated =>
        intro t r hm
        rcases List.mem_cons.mp hm with h1 | h2
        · obtain ⟨rfl, rfl⟩ := Prod.mk.injEq .. |>.mp h1
          exact ⟨translated, htr, rfl⟩
        · exact hok t r h2
      | none => exact hok

theorem translate_text_calls (tr : String → Option String) (st : WalkState)
    (si : Nat) (p : Coord) (s : String) :
    ∃ ext, (translate_text tr si p st s).2.calls = st.calls ++ ext ∧
      ext.length ≤ 1 ∧ ∀ e ∈ ext, e = (si, p, pyStrip s) := by
  simp only [translate_text]
  split
  · exact ⟨[], by simp, by simp, by simp⟩
  · cases hc : cacheLookup st.cache (pyStrip s) with
    | some r => exact ⟨[], by simp, by simp, by simp⟩
    | none =>
      cases htr : tr (pyStrip s) with
      | some translated => exact ⟨[(si, p, pyStrip s)], rfl, by simp, by simp⟩
      | none => exact ⟨[(si, p, pyStrip s)], rfl, by simp, by simp⟩

theorem translate_text_cache_sub (tr : String → Option String) (st : WalkState)
    (si : Nat) (p : Coord) (s : String) :
    ∀ e ∈ st.cache, e ∈ (translate_text tr si p st s).2.cache := by
  intro e he
  simp only [translate_text]
  split
  · exact he
  · cases hc : cacheLookup st.cache (pyStrip s) with
    | some r => exact he
    | none =>
      cases htr : tr (pyStrip s) with
      | some translated => exact List.mem_cons_of_mem _ he
      | none => exact he

theorem translate_text_keys_sub (tr : String → Option String) (st : WalkState)
    (si : Nat) (p : Coord) (s : String) :
    ∀ k ∈ cacheKeys st, k ∈ cacheKeys (translate_text tr si p st s).2 := by
  intro k hk
  obtain ⟨e, he, rfl⟩ := List.mem_map.mp hk
  exact List.mem_map.mpr ⟨e, translate_text_cache_sub tr st si p s e he, rfl⟩

theorem translate_text_key {tr : String → Option String} {st : WalkState}
    {si : Nat} {p : Coord} {s τ : String}
    (hs : s.data.isEmpty = false) (htr : tr (pyStrip s) = some τ) :
    pyStrip s ∈ cacheKeys (translate_text tr si p st s).2 := by
  simp only [translate_text, hs, Bool.false_eq_true, if_false]
  cases hc : cacheLookup st.cache (pyStrip s) with
  | some r => exact cacheLookup_some_key hc
  | none =>
    rw [htr]
    simp [cacheKeys]

theorem countP_concat_calls (calls : List (Nat × Coord × String))
    (e : Nat × Coord × String) (t : String) :
    (calls ++ [e]).countP (fun x => x.2.2 == t) =
      calls.countP (fun x => x.2.2 == t) + (if e.2.2 = t then 1 else 0) := by
  rw [List.countP_append]
  by_cases h : e.2.2 = t
  · simp [List.countP_cons, h]
  · simp [List.countP_cons, h]

theorem translate_text_once {tr : String → Option String} {t τ : String}
    (htr : tr t = some τ) {st : WalkState} (hinv : OnceInv t st)
    (si : Nat) (p : Coord) (s : String) :
    OnceInv t (translate_text tr si p st s).2 := by
  simp only [translate_text]
  split
  · exact hinv
  · cases hc : cacheLookup st.cache (pyStrip s) with
    | some r => exact hinv
    | none =>
      by_cases hts : pyStrip s = t
      · subst hts
        rw [htr]
        have hnotin : pyStrip s ∉ cacheKeys st := cacheLookup_none hc
        have h0 : callsFor st (pyStrip s) = 0 := hinv.2 hnotin
        constructor
        · intro _
          show (st.calls ++ [(si, p, pyStrip s)]).countP _ = 1
          rw [countP_concat_calls]
          rw [callsFor] at h0
          simp [h0]
        · intro habs
          exact absurd (by simp [cacheKeys]) habs
      · cases htr2 : tr (pyStrip s) with
        | some translated =>
          have hkeys : t ∈ cacheKeys ⟨(pyStrip s, translated ++ "\n" ++ pyStrip s) :: st.cache,
              st.calls ++ [(si, p, pyStrip s)]⟩ ↔ t ∈ cacheKeys st := by
            simp only [cacheKeys, List.map_cons, List.mem_cons]
            constructor
            · rintro (h | h)
              · exact absurd h.symm hts
              · exact h
            · exact Or.inr
          have hcalls : callsFor ⟨(pyStrip s, translated ++ "\n" ++ pyStrip s) :: st.cache,
              st.calls ++ [(si, p, pyStrip s)]⟩ t = callsFor st t := by
            show (st.calls ++ [(si, p, pyStrip s)]).countP _ = _
            rw [countP_concat_calls]
            simp [hts, callsFor]
          exact ⟨fun h => by rw [hcalls]; exact hinv.1 (hkeys.mp h),
            fun h => by rw [hcalls]; exact hinv.2 (fun hh => h (hkeys.mpr hh))⟩
        | none =>
          have hcalls : callsFor ⟨st.cache, st.calls ++ [(si, p, pyStrip s)]⟩ t
              = callsFor st t := by
            show (st.calls ++ [(si, p, pyStrip s)]).countP _ = _
            rw [countP_concat_calls]
            simp [hts, callsFor]
          exact ⟨fun h => by rw [hcalls]; exact hinv.1 h,
            fun h => by rw [hcalls]; exact hinv.2 h⟩

/-! ### CellWalker per-cell lemmas (all-sheets variant) -/

theorem strNonempty_isEmpty {s : String} (h : strNonempty s = true) :
    s.data.isEmpty = false := by
  rw [strNonempty] at h
  cases he : s.data.isEmpty
  · rfl
  · rw [he] at h; cases h

theorem translateCellAt_val_ne {tr : String → Option String} {si : Nat} {sh : Sheet}
    {st : WalkState} {p : Coord} (q : Coord) (hq : q ≠ p) :
    (translateCellAt tr si sh st p).1.val q = sh.val q := by
  cases hv : sh.val p with
  | text s =>
    simp only [translateCellAt, hv]
    split
    · simp [updVal, hq]
    · rfl
  | num n => simp [translateCellAt, hv]
  | blank => simp [translateCellAt, hv]
  | other => simp [translateCellAt, hv]

theorem translateCellAt_align_ne {tr : String → Option String} {si : Nat} {sh : Sheet}
    {st : WalkState} {p : Coord} (q : Coord) (hq : q ≠ p) :
    (translateCellAt tr si sh st p).1.align q = sh.align q := by
  cases hv : sh.val p with
  | text s =>
    simp only [translateCellAt, hv]
    split
    · simp [updAlign, hq]
    · rfl
  | num n => simp [translateCellAt, hv]
  | blank => simp [translateCellAt, hv]
  | other => simp [translateCellAt, hv]

theorem translateCellAt_struct {tr : String → Option String} {si : Nat} {sh : Sheet}
    {st : WalkState} {p : Coord} :
    (translateCellAt tr si sh st p).1.maxRow = sh.maxRow ∧
    (translateCellAt tr si sh st p).1.maxCol = sh.maxCol ∧
    (translateCellAt tr si sh st p).1.mergedRanges = sh.mergedRanges ∧
    (translateCellAt tr si sh st p).1.width = sh.width := by
  cases hv : sh.val p with
  | text s =>
    simp only [translateCellAt, hv]
    split
    · exact ⟨rfl, rfl, rfl, rfl⟩
    · exact ⟨rfl, rfl, rfl, rfl⟩
  | num n => simp [translateCellAt, hv]
  | blank => simp [translateCellAt, hv]
  | other => simp [translateCellAt, hv]

theorem translateCellAt_val_self {tr : String → Option String} {st : WalkState}
    (hok : CacheOK tr st) (si : Nat) (sh : Sheet) (p : Coord) :
    (translateCellAt tr si sh st p).1.val p =
      if qualifies (sh.val p) = true then .text (specTranslate tr (textOf (sh.val p)))
      else sh.val p := by
  cases hv : sh.val p with
  | text s =>
    simp only [translateCellAt, hv, qualifies, textOf]
    by_cases hq : (strNonempty s && hasCJK s) = true
    · rw [if_pos hq, if_pos hq]
      have hs : s.data.isEmpty = false :=
        strNonempty_isEmpty (Bool.and_elim_left hq)
      simp only [updVal, if_pos rfl]
      rw [translate_text_fst hok si p hs]
      simp
    · rw [if_neg hq, if_neg hq]
      exact hv
  | num n => simp [translateCellAt, hv, qualifies]
  | blank => simp [translateCellAt, hv, qualifies]
  | other => simp [translateCellAt, hv, qualifies]

theorem translateCellAt_align_self {tr : String → Option String} {st : WalkState}
    (si : Nat) (sh : Sheet) (p : Coord) :
    (translateCellAt tr si sh st p).1.align p =
      if qualifies (sh.val p) = true then (⟨true, some "top"⟩ : Alignment)
      else sh.align p := by
  cases hv : sh.val p with
  | text s =>
    simp only [translateCellAt, hv, qualifies]
    by_cases hq : (strNonempty s && hasCJK s) = true
    · rw [if_pos hq, if_pos hq]
      simp [updAlign]
    · rw [if_neg hq, if_neg hq]
  | num n => simp [translateCellAt, hv, qualifies]
  | blank => simp [translateCellAt, hv, qualifies]
  | other => simp [translateCellAt, hv, qualifies]

theorem translateCellAt_cacheOK {tr : String → Option String} {st : WalkState}
    (hok : CacheOK tr st) (si : Nat) (sh : Sheet) (p : Coord) :
    CacheOK tr (translateCellAt tr si sh st p).2 := by
  cases hv : sh.val p with
  | text s =>
    simp only [translateCellAt, hv]
    split
    · exact translate_text_cacheOK hok si p s
    · exact hok
  | num n => simpa [translateCellAt, hv] using hok
  | blank => simpa [translateCellAt, hv] using hok
  | other => simpa [translateCellAt, hv] using hok

theorem translateCellAt_calls (tr : String → Option String) (si : Nat) (sh : Sheet)
    (st : WalkState) (p : Coord) :
    ∃ ext, (translateCellAt tr si sh st p).2.calls = st.calls ++ ext ∧
      ext.length ≤ 1 ∧ ∀ e ∈ ext, e.1 = si ∧ e.2.1 = p := by
  cases hv : sh.val p with
  | text s =>
    simp only [translateCellAt, hv]
    split
    · obtain ⟨ext, h1, h2, h3⟩ := translate_text_calls tr st si p s
      exact ⟨ext, h1, h2, fun e he => by rw [h3 e he]; exact ⟨rfl, rfl⟩⟩
    · exact ⟨[], by simp, by simp, by simp⟩
  | num n => exact ⟨[], by simp [translateCellAt, hv], by simp, by simp⟩
  | blank => exact ⟨[], by simp [translateCellAt, hv], by simp, by simp⟩
  | other => exact ⟨[], by simp [translateCellAt, hv], by simp, by simp⟩

theorem translateCellAt_keys_sub (tr : String → Option String) (si : Nat) (sh : Sheet)
    (st : WalkState) (p : Coord) :
    ∀ k ∈ cacheKeys st, k ∈ cacheKeys (translateCellAt tr si sh st p).2 := by
  intro k hk
  cases hv : sh.val p with
  | text s =>
    simp only [translateCellAt, hv]
    split
    · exact translate_text_keys_sub tr st si p s k hk
    · exact hk
  | num n => simpa [translateCellAt, hv] using hk
  | blank => simpa [translateCellAt, hv] using hk
  | other => simpa [translateCellAt, hv] using hk

theorem translateCellAt_once {tr : String → Option String} {t τ : String}
    (htr : tr t = some τ) {st : WalkState} (hinv : OnceInv t st)
    (si : Nat) (sh : Sheet) (p : Coord) :
    OnceInv t (translateCellAt tr si sh st p).2 := by
  cases hv : sh.val p with
  | text s =>
    simp only [translateCellAt, hv]
    split
    · exact translate_text_once htr hinv si p s
    · exact hinv
  | num n => simpa [translateCellAt, hv] using hinv
  | blank => simpa [translateCellAt, hv] using hinv
  | other => simpa [translateCellAt, hv] using hinv

theorem translateCellAt_key {tr : String → Option String} {st : WalkState}
    {si : Nat} {sh : Sheet} {p : Coord} {s τ : String}
    (hv : sh.val p = .text s) (hq : (strNonempty s && hasCJK s) = true)
    (htr : tr (pyStrip s) = some τ) :
    pyStrip s ∈ cacheKeys (translateCellAt tr si sh st p).2 := by
  simp only [translateCellAt, hv, hq, if_true]
  exact translate_text_key (strNonempty_isEmpty (Bool.and_elim_left hq)) htr

/-! ### processCell lemmas -/

theorem processCell_val_ne {tr : String → Option String} {si : Nat} {covered : List Coord}
    {mo : Coord → Option Coord} (acc : Sheet × WalkState) (p q : Coord) (hq : q ≠ p) :
    (processCell tr si covered mo acc p).1.val q = acc.1.val q := by
  rw [processCell]
  split
  · exact translateCellAt_val_ne q hq
  · rfl

theorem processCell_align_ne {tr : String → Option String} {si : Nat} {covered : List Coord}
    {mo : Coord → Option Coord} (acc : Sheet × WalkState) (p q : Coord) (hq : q ≠ p) :
    (processCell tr si covered mo acc p).1.align q = acc.1.align q := by
  rw [processCell]
  split
  · exact translateCellAt_align_ne q hq
  · rfl

theorem processCell_struct {tr : String → Option String} {si : Nat} {covered : List Coord}
    {mo : Coord → Option Coord} (acc : Sheet × WalkState) (p : Coord) :
    (processCell tr si covered mo acc p).1.maxRow = acc.1.maxRow ∧
    (processCell tr si covered mo acc p).1.maxCol = acc.1.maxCol ∧
    (processCell tr si covered mo acc p).1.mergedRanges = acc.1.mergedRanges ∧
    (processCell tr si covered mo acc p).1.width = acc.1.width := by
  rw [processCell]
  split
  · exact translateCellAt_struct
  · exact ⟨rfl, rfl, rfl, rfl⟩

theorem processCell_val_self {tr : String → Option String} {si : Nat} {covered : List Coord}
    {mo : Coord → Option Coord} {sh : Sheet} {st : WalkState} (hok : CacheOK tr st)
    (p : Coord) :
    (processCell tr si covered mo (sh, st) p).1.val p =
      if (processedAt covered mo p && qualifies (sh.val p)) = true
      then .text (specTranslate tr (textOf (sh.val p))) else sh.val p := by
  rw [processCell]
  by_cases hp : processedAt covered mo p = true
  · rw [if_pos hp]
    rw [translateCellAt_val_self hok si sh p]
    simp [hp]
  · rw [if_neg hp]
    have : (processedAt covered mo p && qualifies (sh.val p)) = false := by
      simp [Bool.eq_false_iff.mpr hp]
    simp [this]

theorem processCell_align_self {tr : String → Option String} {si : Nat}
    {covered : List Coord} {mo : Coord → Option Coord} {sh : Sheet} {st : WalkState}
    (p : Coord) :
    (processCell tr si covered mo (sh, st) p).1.align p =
      if (processedAt covered mo p && qualifies (sh.val p)) = true
      then (⟨true, some "top"⟩ : Alignment) else sh.align p := by
  rw [processCell]
  by_cases hp : processedAt covered mo p = true
  · rw [if_pos hp]
    rw [translateCellAt_align_self si sh p]
    simp [hp]
  · rw [if_neg hp]
    have : (processedAt covered mo p && qualifies (sh.val p)) = false := by
      simp [Bool.eq_false_iff.mpr hp]
    simp [this]

theorem processCell_cacheOK {tr : String → Option String} {si : Nat} {covered : List Coord}
    {mo : Coord → Option Coord} {acc : Sheet × WalkState} (hok : CacheOK tr acc.2)
    (p : Coord) :
    CacheOK tr (processCell tr si covered mo acc p).2 := by
  rw [processCell]
  split
  · exact translateCellAt_cacheOK hok si acc.1 p
  · exact hok

theorem processCell_calls {tr : String → Option String} {si : Nat} {covered : List Coord}
    {mo : Coord → Option Coord} (acc : Sheet × WalkState) (p : Coord) :
    ∃ ext, (processCell tr si covered mo acc p).2.calls = acc.2.calls ++ ext ∧
      ext.length ≤ 1 ∧
      ∀ e ∈ ext, e.1 = si ∧ e.2.1 = p ∧ processedAt covered mo p = true := by
  rw [processCell]
  split
  · next hp =>
    obtain ⟨ext, h1, h2, h3⟩ := translateCellAt_calls tr si acc.1 acc.2 p
    exact ⟨ext, h1, h2, fun e he => ⟨(h3 e he).1, (h3 e he).2, hp⟩⟩
  · exact ⟨[], by simp, by simp, by simp⟩

theorem processCell_keys_sub {tr : String → Option String} {si : Nat} {covered : List Coord}
    {mo : Coord → Option Coord} (acc : Sheet × WalkState) (p : Coord) :
    ∀ k ∈ cacheKeys acc.2, k ∈ cacheKeys (processCell tr si covered mo acc p).2 := by
  intro k hk
  rw [processCell]
  split
  · exact translateCellAt_keys_sub tr si acc.1 acc.2 p k hk
  · exact hk

theorem processCell_once {tr : String → Option String} {t τ : String}
    (htr : tr t = some τ) {si : Nat} {covered : List Coord} {mo : Coord → Option Coord}
    {acc : Sheet × WalkState} (hinv : OnceInv t acc.2) (p : Coord) :
    OnceInv t (processCell tr si covered mo acc p).2 := by
  rw [processCell]
  split
  · exact translateCellAt_once htr hinv si acc.1 p
  · exact hinv

theorem processCell_key {tr : String → Option String} {si : Nat} {covered : List Coord}
    {mo : Coord → Option Coord} {sh : Sheet} {st : WalkState} {p : Coord} {s τ : String}
    (hp : processedAt covered mo p = true) (hv : sh.val p = .text s)
    (hq : (strNonempty s && hasCJK s) = true) (htr : tr (pyStrip s) = some τ) :
    pyStrip s ∈ cacheKeys (processCell tr si covered mo (sh, st) p).2 := by
  rw [processCell, if_pos hp]
  exact translateCellAt_key hv hq htr

/-! ### Traversal fold lemmas (all-sheets variant) -/

theorem foldl_processCell_frame {tr : String → Option String} {si : Nat}
    {covered : List Coord} {mo : Coord → Option Coord} (l : List Coord) :
    ∀ (sh : Sheet) (st : WalkState) (p : Coord), p ∉ l →
      (l.foldl (processCell tr si covered mo) (sh, st)).1.val p = sh.val p ∧
      (l.foldl (processCell tr si covered mo) (sh, st)).1.align p = sh.align p := by
  induction l with
  | nil => intro sh st p _; exact ⟨rfl, rfl⟩
  | cons a t ih =>
    intro sh st p hp
    have hpa : p ≠ a := fun h => hp (h ▸ List.mem_cons_self a t)
    have hpt : p ∉ t := fun h => hp (List.mem_cons_of_mem a h)
    rw [List.foldl_cons]
    have hstep := ih (processCell tr si covered mo (sh, st) a).1
      (processCell tr si covered mo (sh, st) a).2 p hpt
    rw [Prod.mk.eta] at hstep
    rw [hstep.1, hstep.2]
    exact ⟨processCell_val_ne (sh, st) a p hpa, processCell_align_ne (sh, st) a p hpa⟩

theorem foldl_processCell_struct {tr : String → Option String} {si : Nat}
    {covered : List Coord} {mo : Coord → Option Coord} (l : List Coord) :
    ∀ (sh : Sheet) (st : WalkState),
      (l.foldl (processCell tr si covered mo) (sh, st)).1.maxRow = sh.maxRow ∧
      (l.foldl (processCell tr si covered mo) (sh, st)).1.maxCol = sh.maxCol ∧
      (l.foldl (processCell tr si covered mo) (sh, st)).1.mergedRanges = sh.mergedRanges ∧
      (l.foldl (processCell tr si covered mo) (sh, st)).1.width = sh.width := by
  induction l with
  | nil => intro sh st; exact ⟨rfl, rfl, rfl, rfl⟩
  | cons a t ih =>
    intro sh st
    rw [List.foldl_cons]
    have hstep := ih (processCell tr si covered mo (sh, st) a).1
      (processCell tr si covered mo (sh, st) a).2
    rw [Prod.mk.eta] at hstep
    obtain ⟨s1, s2, s3, s4⟩ := processCell_struct (sh, st) a
    exact ⟨hstep.1.trans s1, hstep.2.1.trans s2, hstep.2.2.1.trans s3, hstep.2.2.2.trans s4⟩

theorem foldl_processCell_cacheOK {tr : String → Option String} {si : Nat}
    {covered : List Coord} {mo : Coord → Option Coord} (l : List Coord) :
    ∀ (sh : Sheet) (st : WalkState), CacheOK tr st →
      CacheOK tr (l.foldl (processCell tr si covered mo) (sh, st)).2 := by
  induction l with
  | nil => intro sh st hok; exact hok
  | cons a t ih =>
    intro sh st hok
    rw [List.foldl_cons]
    have hstep := ih (processCell tr si covered mo (sh, st) a).1
      (processCell tr si covered mo (sh, st) a).2 (processCell_cacheOK hok a)
    rwa [Prod.mk.eta] at hstep

theorem foldl_processCell_val {tr : String → Option String} {si : Nat}
    {covered : List Coord} {mo : Coord → Option Coord} (l : List Coord) :
    ∀ (sh : Sheet) (st : WalkState), l.Nodup → CacheOK tr st → ∀ p : Coord,
      (l.foldl (processCell tr si covered mo) (sh, st)).1.val p =
        if p ∈ l ∧ (processedAt covered mo p && qualifies (sh.val p)) = true
        then .text (specTranslate tr (textOf (sh.val p))) else sh.val p := by
  induction l with
  | nil => intro sh st _ _ p; simp
  | cons a t ih =>
    intro sh st hnd hok p
    obtain ⟨hat, hndt⟩ := List.nodup_cons.mp hnd
    rw [List.foldl_cons]
    by_cases hpa : p = a
    · subst hpa
      have hfr := @foldl_processCell_frame tr si covered mo t (processCell tr si covered mo (sh, st) p).1
        (processCell tr si covered mo (sh, st) p).2 p hat
      rw [Prod.mk.eta] at hfr
      rw [hfr.1, processCell_val_self hok p]
      by_cases hc : (processedAt covered mo p && qualifies (sh.val p)) = true
      · simp [hc]
      · simp [hc]
    · have hstep := ih (processCell tr si covered mo (sh, st) a).1
        (processCell tr si covered mo (sh, st) a).2 hndt (processCell_cacheOK hok a) p
      rw [Prod.mk.eta] at hstep
      rw [hstep, processCell_val_ne (sh, st) a p hpa]
      by_cases hpt : p ∈ t
      · simp [hpt, hpa]
      · simp [hpt, hpa]

theorem foldl_processCell_align {tr : String → Option String} {si : Nat}
    {covered : List Coord} {mo : Coord → Option Coord} (l : List Coord) :
    ∀ (sh : Sheet) (st : WalkState), l.Nodup → ∀ p : Coord,
      (l.foldl (processCell tr si covered mo) (sh, st)).1.align p =
        if p ∈ l ∧ (processedAt covered mo p && qualifies (sh.val p)) = true
        then (⟨true, some "top"⟩ : Alignment) else sh.align p := by
  induction l with
  | nil => intro sh st _ p; simp
  | cons a t ih =>
    intro sh st hnd p
    obtain ⟨hat, hndt⟩ := List.nodup_cons.mp hnd
    rw [List.foldl_cons]
    by_cases hpa : p = a
    · subst hpa
      have hfr := @foldl_processCell_frame tr si covered mo t (processCell tr si covered mo (sh, st) p).1
        (processCell tr si covered mo (sh, st) p).2 p hat
      rw [Prod.mk.eta] at hfr
      rw [hfr.2, processCell_align_self p]
      by_cases hc : (processedAt covered mo p && qualifies (sh.val p)) = true
      · simp [hc]
      · simp [hc]
    · have hstep := ih (processCell tr si covered mo (sh, st) a).1
        (processCell tr si covered mo (sh, st) a).2 hndt p
      rw [Prod.mk.eta] at hstep
      rw [hstep, processCell_align_ne (sh, st) a p hpa, processCell_val_ne (sh, st) a p hpa]
      by_cases hpt : p ∈ t
      · simp [hpt, hpa]
      · simp [hpt, hpa]

theorem foldl_processCell_calls {tr : String → Option String} {si : Nat}
    {covered : List Coord} {mo : Coord → Option Coord} (l : List Coord) :
    ∀ (sh : Sheet) (st : WalkState), l.Nodup →
      ∃ ext, (l.foldl (processCell tr si covered mo) (sh, st)).2.calls = st.calls ++ ext ∧
        (∀ e ∈ ext, e.1 = si ∧ e.2.1 ∈ l ∧ processedAt covered mo e.2.1 = true) ∧
        ∀ q : Coord, ext.countP (fun e => e.2.1 == q) ≤ 1 := by
  induction l with
  | nil => intro sh st _; exact ⟨[], by simp, by simp, by simp⟩
  | cons a t ih =>
    intro sh st hnd
    obtain ⟨hat, hndt⟩ := List.nodup_cons.mp hnd
    obtain ⟨ext1, he1, hlen1, hall1⟩ := processCell_calls (sh, st) a
    have hstep := ih (processCell tr si covered mo (sh, st) a).1
      (processCell tr si covered mo (sh, st) a).2 hndt
    rw [Prod.mk.eta] at hstep
    obtain ⟨ext2, he2, hall2, hcnt2⟩ := hstep
    refine ⟨ext1 ++ ext2, ?_, ?_, ?_⟩
    · rw [List.foldl_cons, he2, he1, List.append_assoc]
    · intro e he
      rcases List.mem_append.mp he with h1 | h2
      · obtain ⟨ha, hb, hc⟩ := hall1 e h1
        exact ⟨ha, hb ▸ List.mem_cons_self a t, hb ▸ hc⟩
      · obtain ⟨ha, hb, hc⟩ := hall2 e h2
        exact ⟨ha, List.mem_cons_of_mem a hb, hc⟩
    · intro q
      rw [List.countP_append]
      by_cases hqa : q = a
      · subst hqa
        have h2 : ext2.countP (fun e => e.2.1 == q) = 0 := by
          rw [List.countP_eq_zero]
          intro e he
          have := (hall2 e he).2.1
          simp only [beq_iff_eq]
          intro hcon
          exact hat (hcon ▸ this)
        have h1 : ext1.countP (fun e => e.2.1 == q) ≤ 1 :=
          le_trans (List.countP_le_length _) hlen1
        omega
      · have h1 : ext1.countP (fun e => e.2.1 == q) = 0 := by
          rw [List.countP_eq_zero]
          intro e he
          have := (hall1 e he).2.1
          simp only [beq_iff_eq]
          intro hcon
          exact hqa (hcon.symm.trans this)
        have h2 := hcnt2 q
        omega

theorem foldl_processCell_keys_sub {tr : String → Option String} {si : Nat}
    {covered : List Coord} {mo : Coord → Option Coord} (l : List Coord) :
    ∀ (sh : Sheet) (st : WalkState), ∀ k ∈ cacheKeys st,
      k ∈ cacheKeys (l.foldl (processCell tr si covered mo) (sh, st)).2 := by
  induction l with
  | nil => intro sh st k hk; exact hk
  | cons a t ih =>
    intro sh st k hk
    rw [List.foldl_cons]
    have hstep := ih (processCell tr si covered mo (sh, st) a).1
      (processCell tr si covered mo (sh, st) a).2 k (processCell_keys_sub (sh, st) a k hk)
    rwa [Prod.mk.eta] at hstep

theorem foldl_processCell_once {tr : String → Option String} {t τ : String}
    (htr : tr t = some τ) {si : Nat} {covered : List Coord} {mo : Coord → Option Coord}
    (l : List Coord) :
    ∀ (sh : Sheet) (st : WalkState), OnceInv t st →
      OnceInv t (l.foldl (processCell tr si covered mo) (sh, st)).2 := by
  induction l with
  | nil => intro sh st hinv; exact hinv
  | cons a t' ih =>
    intro sh st hinv
    rw [List.foldl_cons]
    have hstep := ih (processCell tr si covered mo (sh, st) a).1
      (processCell tr si covered mo (sh, st) a).2 (processCell_once htr hinv a)
    rwa [Prod.mk.eta] at hstep

theorem foldl_processCell_key {tr : String → Option String} {si : Nat}
    {covered : List Coord} {mo : Coord → Option Coord} (l : List Coord) :
    ∀ (sh : Sheet) (st : WalkState), l.Nodup → ∀ p ∈ l,
      processedAt covered mo p = true → ∀ s τ : String, sh.val p = .text s →
      (strNonempty s && hasCJK s) = true → tr (pyStrip s) = some τ →
      pyStrip s ∈ cacheKeys (l.foldl (processCell tr si covered mo) (sh, st)).2 := by
  induction l with
  | nil => intro _ _ _ p hp; cases hp
  | cons a t ih =>
    intro sh st hnd p hp hproc s τ hv hq htr
    obtain ⟨hat, hndt⟩ := List.nodup_cons.mp hnd
    rw [List.foldl_cons]
    by_cases hpa : p = a
    · subst hpa
      have hkey : pyStrip s ∈ cacheKeys (processCell tr si covered mo (sh, st) p).2 :=
        processCell_key hproc hv hq htr
      have := @foldl_processCell_keys_sub tr si covered mo t (processCell tr si covered mo (sh, st) p).1
        (processCell tr si covered mo (sh, st) p).2 (pyStrip s) hkey
      rwa [Prod.mk.eta] at this
    · have hpt : p ∈ t := by
        rcases List.mem_cons.mp hp with h | h
        · exact absurd h hpa
        · exact h
      have hv' : (processCell tr si covered mo (sh, st) a).1.val p = .text s := by
        rw [processCell_val_ne (sh, st) a p hpa, hv]
      have := ih (processCell tr si covered mo (sh, st) a).1
        (processCell tr si covered mo (sh, st) a).2 hndt p hpt hproc s τ hv' hq htr
      rwa [Prod.mk.eta] at this

/-! ### Sheet traversal order -/

theorem mem_sheetCoords {sh : Sheet} {p : Coord} :
    p ∈ sheetCoords sh ↔ 1 ≤ p.1 ∧ p.1 ≤ sh.maxRow ∧ 1 ≤ p.2 ∧ p.2 ≤ sh.maxCol := by
  cases p with
  | mk a b =>
    simp only [sheetCoords, List.mem_flatMap, List.mem_map, List.mem_range'_1,
      Prod.mk.injEq]
    constructor
    · rintro ⟨row, ⟨h1, h2⟩, col, ⟨h3, h4⟩, h5, h6⟩
      subst h5; subst h6
      exact ⟨h1, by omega, h3, by omega⟩
    · rintro ⟨h1, h2, h3, h4⟩
      exact ⟨a, ⟨h1, by omega⟩, b, ⟨h3, by omega⟩, rfl, rfl⟩

theorem sheetCoords_nodup (sh : Sheet) : (sheetCoords sh).Nodup := by
  rw [sheetCoords, List.nodup_flatMap]
  constructor
  · intro r _
    exact (List.nodup_range' _ _).map
      (fun c c' h => by simpa using congrArg Prod.snd h)
  · apply List.Pairwise.imp ?_ (List.nodup_range' 1 sh.maxRow)
    intro r r' hne
    intro x hx hx'
    obtain ⟨c, _, rfl⟩ := List.mem_map.mp hx
    obtain ⟨c', _, heq⟩ := List.mem_map.mp hx'
    exact hne (by simpa using congrArg Prod.fst heq.symm)

/-! ### walkSheet characterization -/

theorem walkSheet_val {tr : String → Option String} {st : WalkState}
    (hok : CacheOK tr st) (si : Nat) (sh : Sheet) (p : Coord) :
    (walkSheet tr si sh st).1.val p = specNewVal tr sh p := by
  rw [walkSheet, foldl_processCell_val (sheetCoords sh) sh st (sheetCoords_nodup sh) hok p,
    specNewVal, cellCond]
  by_cases hmem : p ∈ sheetCoords sh
  · by_cases hc : (processedAt (buildCovered sh.mergedRanges) (buildMasterOf sh.mergedRanges) p
        && qualifies (sh.val p)) = true
    · simp [hmem, hc, Bool.and_assoc]
    · simp [hmem, hc, Bool.and_assoc]
  · simp [hmem]

theorem walkSheet_align {tr : String → Option String} (si : Nat) (sh : Sheet)
    (st : WalkState) (p : Coord) :
    (walkSheet tr si sh st).1.align p =
      if cellCond sh p = true then (⟨true, some "top"⟩ : Alignment) else sh.align p := by
  rw [walkSheet, foldl_processCell_align (sheetCoords sh) sh st (sheetCoords_nodup sh) p,
    cellCond]
  by_cases hmem : p ∈ sheetCoords sh
  · by_cases hc : (processedAt (buildCovered sh.mergedRanges) (buildMasterOf sh.mergedRanges) p
        && qualifies (sh.val p)) = true
    · simp [hmem, hc, Bool.and_assoc]
    · simp [hmem, hc, Bool.and_assoc]
  · simp [hmem]

theorem walkSheet_struct {tr : String → Option String} (si : Nat) (sh : Sheet)
    (st : WalkState) :
    (walkSheet tr si sh st).1.maxRow = sh.maxRow ∧
    (walkSheet tr si sh st).1.maxCol = sh.maxCol ∧
    (walkSheet tr si sh st).1.mergedRanges = sh.mergedRanges ∧
    (walkSheet tr si sh st).1.width = sh.width :=
  foldl_processCell_struct (sheetCoords sh) sh st

theorem walkSheet_cacheOK {tr : String → Option String} {st : WalkState}
    (hok : CacheOK tr st) (si : Nat) (sh : Sheet) :
    CacheOK tr (walkSheet tr si sh st).2 :=
  foldl_processCell_cacheOK (sheetCoords sh) sh st hok

theorem walkSheet_calls {tr : String → Option String} (si : Nat) (sh : Sheet)
    (st : WalkState) :
    ∃ ext, (walkSheet tr si sh st).2.calls = st.calls ++ ext ∧
      (∀ e ∈ ext, e.1 = si ∧ e.2.1 ∈ sheetCoords sh ∧
        processedAt (buildCovered sh.mergedRanges) (buildMasterOf sh.mergedRanges) e.2.1
          = true) ∧
      ∀ q : Coord, ext.countP (fun e => e.2.1 == q) ≤ 1 :=
  foldl_processCell_calls (sheetCoords sh) sh st (sheetCoords_nodup sh)

theorem walkSheet_keys_sub {tr : String → Option String} (si : Nat) (sh : Sheet)
    (st : WalkState) :
    ∀ k ∈ cacheKeys st, k ∈ cacheKeys (walkSheet tr si sh st).2 :=
  foldl_processCell_keys_sub (sheetCoords sh) sh st

theorem walkSheet_once {tr : String → Option String} {t τ : String}
    (htr : tr t = some τ) {st : WalkState} (hinv : OnceInv t st) (si : Nat) (sh : Sheet) :
    OnceInv t (walkSheet tr si sh st).2 :=
  foldl_processCell_once htr (sheetCoords sh) sh st hinv

theorem walkSheet_key {tr : String → Option String} {st : WalkState} {si : Nat}
    {sh : Sheet} {p : Coord} {s τ : String} (hmem : p ∈ sheetCoords sh)
    (hproc : processedAt (buildCovered sh.mergedRanges) (buildMasterOf sh.mergedRanges) p
      = true)
    (hv : sh.val p = .text s) (hq : (strNonempty s && hasCJK s) = true)
    (htr : tr (pyStrip s) = some τ) :
    pyStrip s ∈ cacheKeys (walkSheet tr si sh st).2 :=
  foldl_processCell_key (sheetCoords sh) sh st (sheetCoords_nodup sh) p hmem hproc s τ hv
    hq htr

/-! ### LayoutPlanner lemmas -/

theorem layoutCol_val (s : Sheet) (c : Nat) : (layoutCol s c).val = s.val := by
  rw [layoutCol]
  split <;> rfl

theorem layoutCol_align (s : Sheet) (c : Nat) : (layoutCol s c).align = s.align := by
  rw [layoutCol]
  split <;> rfl

theorem layoutCol_maxRow (s : Sheet) (c : Nat) : (layoutCol s c).maxRow = s.maxRow := by
  rw [layoutCol]
  split <;> rfl

theorem layoutCol_maxCol (s : Sheet) (c : Nat) : (layoutCol s c).maxCol = s.maxCol := by
  rw [layoutCol]
  split <;> rfl

theorem layoutCol_ranges (s : Sheet) (c : Nat) :
    (layoutCol s c).mergedRanges = s.mergedRanges := by
  rw [layoutCol]
  split <;> rfl

theorem layoutCol_width_ne (s : Sheet) (c d : Nat) (hd : d ≠ c) :
    (layoutCol s c).width d = s.width d := by
  rw [layoutCol]
  split
  · simp [updWidth, hd]
  · rfl

theorem layoutCol_width_self (s : Sheet) (c : Nat) :
    (layoutCol s c).width c =
      if 0 < columnMaxLen s.maxRow s.mergedRanges s.val c
      then some (min (columnMaxLen s.maxRow s.mergedRanges s.val c + 2) 50)
      else s.width c := by
  rw [layoutCol]
  split
  · simp [updWidth]
  · rfl

theorem foldl_layoutCol_fields (l : List Nat) :
    ∀ s : Sheet, (l.foldl layoutCol s).val = s.val ∧
      (l.foldl layoutCol s).align = s.align ∧
      (l.foldl layoutCol s).maxRow = s.maxRow ∧
      (l.foldl layoutCol s).maxCol = s.maxCol ∧
      (l.foldl layoutCol s).mergedRanges = s.mergedRanges := by
  induction l with
  | nil => intro s; exact ⟨rfl, rfl, rfl, rfl, rfl⟩
  | cons a t ih =>
    intro s
    rw [List.foldl_cons]
    obtain ⟨h1, h2, h3, h4, h5⟩ := ih (layoutCol s a)
    exact ⟨h1.trans (layoutCol_val s a), h2.trans (layoutCol_align s a),
      h3.trans (layoutCol_maxRow s a), h4.trans (layoutCol_maxCol s a),
      h5.trans (layoutCol_ranges s a)⟩

theorem foldl_layoutCol_width_not_mem (l : List Nat) :
    ∀ (s : Sheet) (c : Nat), c ∉ l → (l.foldl layoutCol s).width c = s.width c := by
  induction l with
  | nil => intro s c _; rfl
  | cons a t ih =>
    intro s c hc
    have hca : c ≠ a := fun h => hc (h ▸ List.mem_cons_self a t)
    have hct : c ∉ t := fun h => hc (List.mem_cons_of_mem a h)
    rw [List.foldl_cons, ih (layoutCol s a) c hct, layoutCol_width_ne s a c hca]

theorem foldl_layoutCol_width (l : List Nat) :
    ∀ (s : Sheet), l.Nodup → ∀ c : Nat,
      (l.foldl layoutCol s).width c =
        if c ∈ l ∧ 0 < columnMaxLen s.maxRow s.mergedRanges s.val c
        then some (min (columnMaxLen s.maxRow s.mergedRanges s.val c + 2) 50)
        else s.width c := by
  induction l with
  | nil => intro s _ c; simp
  | cons a t ih =>
    intro s hnd c
    obtain ⟨hat, hndt⟩ := List.nodup_cons.mp hnd
    rw [List.foldl_cons]
    by_cases hca : c = a
    · subst hca
      rw [foldl_layoutCol_width_not_mem t (layoutCol s c) c hat, layoutCol_width_self s c]
      by_cases hL : 0 < columnMaxLen s.maxRow s.mergedRanges s.val c
      · simp [hL]
      · simp [hL]
    · have hih := ih (layoutCol s a) hndt c
      rw [hih, layoutCol_val s a, layoutCol_maxRow s a, layoutCol_ranges s a,
        layoutCol_width_ne s a c hca]
      by_cases hct : c ∈ t
      · simp [hct, hca]
      · simp [hct, hca]

theorem layoutSheet_width {sh : Sheet} {c : Nat} (hc : c ∈ List.range' 1 sh.maxCol) :
    (layoutSheet sh).width c =
      if 0 < columnMaxLen sh.maxRow sh.mergedRanges sh.val c
      then some (min (columnMaxLen sh.maxRow sh.mergedRanges sh.val c + 2) 50)
      else sh.width c := by
  rw [layoutSheet, foldl_layoutCol_width _ sh (List.nodup_range' _ _) c]
  by_cases hL : 0 < columnMaxLen sh.maxRow sh.mergedRanges sh.val c
  · simp [hc, hL]
  · simp [hc, hL]

theorem columnMaxLen_congr {maxRow : Nat} {ranges : List MergedRange}
    {v1 v2 : Coord → CellVal} (h : ∀ p, v1 p = v2 p) (c : Nat) :
    columnMaxLen maxRow ranges v1 c = columnMaxLen maxRow ranges v2 c := by
  rw [funext h]

/-! ### SheetPipeline lemmas -/

theorem processSheet_snd (tr : String → Option String) (si : Nat) (sh : Sheet)
    (st : WalkState) : (processSheet tr si sh st).2 = (walkSheet tr si sh st).2 := rfl

theorem processSheet_cacheOK {tr : String → Option String} {st : WalkState}
    (hok : CacheOK tr st) (si : Nat) (sh : Sheet) :
    CacheOK tr (processSheet tr si sh st).2 :=
  walkSheet_cacheOK hok si sh

theorem processSheet_val {tr : String → Option String} {st : WalkState}
    (hok : CacheOK tr st) (si : Nat) (sh : Sheet) (p : Coord) :
    (processSheet tr si sh st).1.val p = specNewVal tr sh p := by
  rw [processSheet]
  have := (foldl_layoutCol_fields (List.range' 1 (walkSheet tr si sh st).1.maxCol)
    (walkSheet tr si sh st).1).1
  rw [layoutSheet]
  rw [show ((List.range' 1 (walkSheet tr si sh st).1.maxCol).foldl layoutCol
      (walkSheet tr si sh st).1).val = (walkSheet tr si sh st).1.val from this]
  exact walkSheet_val hok si sh p

theorem processSheet_align {tr : String → Option String} (si : Nat) (sh : Sheet)
    (st : WalkState) (p : Coord) :
    (processSheet tr si sh st).1.align p =
      if cellCond sh p = true then (⟨true, some "top"⟩ : Alignment) else sh.align p := by
  rw [processSheet]
  have := (foldl_layoutCol_fields (List.range' 1 (walkSheet tr si sh st).1.maxCol)
    (walkSheet tr si sh st).1).2.1
  rw [layoutSheet]
  rw [show ((List.range' 1 (walkSheet tr si sh st).1.maxCol).foldl layoutCol
      (walkSheet tr si sh st).1).align = (walkSheet tr si sh st).1.align from this]
  exact walkSheet_align si sh st p

theorem processSheet_width {tr : String → Option String} {st : WalkState}
    (hok : CacheOK tr st) (si : Nat) (sh : Sheet) {c : Nat} (hc1 : 1 ≤ c)
    (hc2 : c ≤ sh.maxCol) :
    (processSheet tr si sh st).1.width c =
      if 0 < columnMaxLen sh.maxRow sh.mergedRanges (specNewVal tr sh) c
      then some (min (columnMaxLen sh.maxRow sh.mergedRanges (specNewVal tr sh) c + 2) 50)
      else sh.width c := by
  obtain ⟨hmr, hmc, hrg, hw⟩ := walkSheet_struct si sh st
  have hcmem : c ∈ List.range' 1 (walkSheet tr si sh st).1.maxCol := by
    rw [List.mem_range'_1, hmc]
    omega
  rw [processSheet, layoutSheet_width hcmem, hmr, hrg, hw]
  rw [columnMaxLen_congr (walkSheet_val hok si sh) c]

theorem runSheets_length (tr : String → Option String) (sheets : List (String × Sheet)) :
    ∀ (si : Nat) (st : WalkState), (runSheets tr si sheets st).1.length = sheets.length := by
  induction sheets with
  | nil => intro si st; rfl
  | cons e rest ih => intro si st; simp [runSheets, ih]

theorem runSheets_get_none (tr : String → Option String) {sheets : List (String × Sheet)}
    {i : Nat} (h : sheets.get? i = none) (si : Nat) (st : WalkState) :
    (runSheets tr si sheets st).1.get? i = none := by
  rw [List.get?_eq_none] at h ⊢
  rwa [runSheets_length]

theorem runSheets_spec (tr : String → Option String) (sheets : List (String × Sheet)) :
    ∀ (si : Nat) (st : WalkState) (i : Nat) (nm : String) (sh : Sheet), CacheOK tr st →
      sheets.get? i = some (nm, sh) →
      ∃ st', CacheOK tr st' ∧
        (runSheets tr si sheets st).1.get? i = some (nm, (processSheet tr (si + i) sh st').1) := by
  induction sheets with
  | nil => intro si st i nm sh _ h; cases h
  | cons e rest ih =>
    intro si st i nm sh hok hget
    cases i with
    | zero =>
      cases e with
      | mk nm' sh' =>
        obtain ⟨h1, h2⟩ := Prod.mk.injEq .. |>.mp (Option.some.inj hget)
        subst h1; subst h2
        exact ⟨st, hok, by simp [runSheets]⟩
    | succ i =>
      have hok' : CacheOK tr (processSheet tr si e.2 st).2 := processSheet_cacheOK hok si e.2
      obtain ⟨st', h1, h2⟩ := ih (si + 1) (processSheet tr si e.2 st).2 i nm sh hok' hget
      refine ⟨st', h1, ?_⟩
      have harith : si + 1 + i = si + (i + 1) := by omega
      rw [harith] at h2
      simpa [runSheets] using h2

theorem runSheets_cacheOK (tr : String → Option String) (sheets : List (String × Sheet)) :
    ∀ (si : Nat) (st : WalkState), CacheOK tr st →
      CacheOK tr (runSheets tr si sheets st).2 := by
  induction sheets with
  | nil => intro si st hok; exact hok
  | cons e rest ih =>
    intro si st hok
    simpa [runSheets] using ih (si + 1) (processSheet tr si e.2 st).2
      (processSheet_cacheOK hok si e.2)

theorem runSheets_once {tr : String → Option String} {t τ : String}
    (htr : tr t = some τ) (sheets : List (String × Sheet)) :
    ∀ (si : Nat) (st : WalkState), OnceInv t st →
      OnceInv t (runSheets tr si sheets st).2 := by
  induction sheets with
  | nil => intro si st hinv; exact hinv
  | cons e rest ih =>
    intro si st hinv
    simpa [runSheets] using ih (si + 1) (processSheet tr si e.2 st).2
      (walkSheet_once htr hinv si e.2)

theorem runSheets_keys_sub (tr : String → Option String) (sheets : List (String × Sheet)) :
    ∀ (si : Nat) (st : WalkState) (k : String), k ∈ cacheKeys st →
      k ∈ cacheKeys (runSheets tr si sheets st).2 := by
  induction sheets with
  | nil => intro si st k hk; exact hk
  | cons e rest ih =>
    intro si st k hk
    simpa [runSheets] using ih (si + 1) (processSheet tr si e.2 st).2 k
      (walkSheet_keys_sub si e.2 st k hk)

theorem runSheets_key (tr : String → Option String) (sheets : List (String × Sheet)) :
    ∀ (si : Nat) (st : WalkState) (i : Nat) (nm : String) (sh : Sheet) (p : Coord)
      (s τ : String), sheets.get? i = some (nm, sh) → p ∈ sheetCoords sh →
      processedAt (buildCovered sh.mergedRanges) (buildMasterOf sh.mergedRanges) p = true →
      sh.val p = .text s → (strNonempty s && hasCJK s) = true → tr (pyStrip s) = some τ →
      pyStrip s ∈ cacheKeys (runSheets tr si sheets st).2 := by
  induction sheets with
  | nil => intro si st i nm sh p s τ h; cases h
  | cons e rest ih =>
    intro si st i nm sh p s τ hget hmem hproc hv hq htr
    cases i with
    | zero =>
      have he : e = (nm, sh) := Option.some.inj hget
      subst he
      have hkey : pyStrip s ∈ cacheKeys (walkSheet tr si sh st).2 :=
        walkSheet_key hmem hproc hv hq htr
      simpa [runSheets] using runSheets_keys_sub tr rest (si + 1)
        (processSheet tr si sh st).2 (pyStrip s) hkey
    | succ i =>
      simpa [runSheets] using ih (si + 1) (processSheet tr si e.2 st).2 i nm sh p s τ hget
        hmem hproc hv hq htr

theorem runSheets_calls (tr : String → Option String) (sheets : List (String × Sheet)) :
    ∀ (si : Nat) (st : WalkState),
      ∃ ext, (runSheets tr si sheets st).2.calls = st.calls ++ ext ∧
        (∀ e ∈ ext, ∃ k nm sh, sheets.get? k = some (nm, sh) ∧ e.1 = si + k ∧
          e.2.1 ∈ sheetCoords sh ∧
          processedAt (buildCovered sh.mergedRanges) (buildMasterOf sh.mergedRanges) e.2.1
            = true) ∧
        ∀ (j : Nat) (q : Coord), ext.countP (fun e => e.1 == j && e.2.1 == q) ≤ 1 := by
  induction sheets with
  | nil => intro si st; exact ⟨[], by simp [runSheets], by simp, by simp⟩
  | cons e rest ih =>
    intro si st
    obtain ⟨ext1, he1, hall1, hcnt1⟩ := @walkSheet_calls tr si e.2 st
    obtain ⟨ext2, he2, hall2, hcnt2⟩ := ih (si + 1) (processSheet tr si e.2 st).2
    refine ⟨ext1 ++ ext2, ?_, ?_, ?_⟩
    · show (runSheets tr (si + 1) rest (processSheet tr si e.2 st).2).2.calls = _
      rw [he2, processSheet_snd, he1, List.append_assoc]
    · intro x hx
      rcases List.mem_append.mp hx with h1 | h2
      · obtain ⟨ha, hb, hc⟩ := hall1 x h1
        exact ⟨0, e.1, e.2, by cases e; rfl, by omega, hb, hc⟩
      · obtain ⟨k, nm, sh, hget, hidx, hmem, hproc⟩ := hall2 x h2
        exact ⟨k + 1, nm, sh, by simpa using hget, by omega, hmem, hproc⟩
    · intro j q
      rw [List.countP_append]
      by_cases hj : j = si
      · subst hj
        have h2 : ext2.countP (fun x => x.1 == j && x.2.1 == q) = 0 := by
          rw [List.countP_eq_zero]
          intro x hx
          obtain ⟨k, nm, sh, _, hidx, _, _⟩ := hall2 x hx
          simp only [Bool.and_eq_true, beq_iff_eq, not_and]
          intro hcon
          omega
        have h1 : ext1.countP (fun x => x.1 == j && x.2.1 == q) ≤ 1 := by
          refine le_trans (List.countP_mono_left ?_) (hcnt1 q)
          intro x _ hx
          exact (Bool.and_elim_right hx)
        omega
      · have h1 : ext1.countP (fun x => x.1 == j && x.2.1 == q) = 0 := by
          rw [List.countP_eq_zero]
          intro x hx
          have := (hall1 x hx).1
          simp only [Bool.and_eq_true, beq_iff_eq, not_and]
          intro hcon
          exact absurd (hcon.symm.trans this) hj
        have h2 := hcnt2 j q
        omega

/-! ### translate_excel_sheets helpers -/

theorem initState_cacheOK (tr : String → Option String) : CacheOK tr initState :=
  fun t r h => absurd h (by simp [initState])

theorem tes_entry (tr : String → Option String) (wb : Workbook) (i : Nat) (nm : String)
    (sh : Sheet) (hget : wb.sheets.get? i = some (nm, sh)) :
    ∃ st', CacheOK tr st' ∧
      (translate_excel_sheets tr wb).1.sheets.get? i
        = some (nm, (processSheet tr i sh st').1) := by
  obtain ⟨st', h1, h2⟩ :=
    runSheets_spec tr wb.sheets 0 initState i nm sh (initState_cacheOK tr) hget
  rw [Nat.zero_add] at h2
  exact ⟨st', h1, h2⟩

theorem tes_val (tr : String → Option String) (wb : Workbook) (i : Nat) (nm : String)
    (sh : Sheet) (p : Coord) (hget : wb.sheets.get? i = some (nm, sh)) :
    getSheetVal (translate_excel_sheets tr wb).1 i p = specNewVal tr sh p := by
  obtain ⟨st', hok, hsp⟩ := tes_entry tr wb i nm sh hget
  simp only [getSheetVal, hsp]
  exact processSheet_val hok i sh p

theorem tes_align (tr : String → Option String) (wb : Workbook) (i : Nat) (nm : String)
    (sh : Sheet) (p : Coord) (hget : wb.sheets.get? i = some (nm, sh)) :
    getSheetAlign (translate_excel_sheets tr wb).1 i p =
      if cellCond sh p = true then (⟨true, some "top"⟩ : Alignment) else sh.align p := by
  obtain ⟨st', hok, hsp⟩ := tes_entry tr wb i nm sh hget
  simp only [getSheetAlign, hsp]
  exact processSheet_align i sh st' p

theorem tes_width (tr : String → Option String) (wb : Workbook) (i : Nat) (nm : String)
    (sh : Sheet) (c : Nat) (hget : wb.sheets.get? i = some (nm, sh)) (hc1 : 1 ≤ c)
    (hc2 : c ≤ sh.maxCol) :
    getSheetWidth (translate_excel_sheets tr wb).1 i c =
      if 0 < columnMaxLen sh.maxRow sh.mergedRanges (specNewVal tr sh) c
      then some (min (columnMaxLen sh.maxRow sh.mergedRanges (specNewVal tr sh) c + 2) 50)
      else sh.width c := by
  obtain ⟨st', hok, hsp⟩ := tes_entry tr wb i nm sh hget
  simp only [getSheetWidth, hsp]
  exact processSheet_width hok i sh hc1 hc2

theorem tes_once {tr : String → Option String} {t τ : String} (htr : tr t = some τ)
    (wb : Workbook) : OnceInv t (translate_excel_sheets tr wb).2 := by
  have hinv0 : OnceInv t initState :=
    ⟨fun h => absurd h (by simp [cacheKeys, initState]), fun _ => rfl⟩
  exact runSheets_once htr wb.sheets 0 initState hinv0

theorem tes_key {tr : String → Option String} {wb : Workbook} {i : Nat} {nm : String}
    {sh : Sheet} {p : Coord} {s τ : String} (hget : wb.sheets.get? i = some (nm, sh))
    (hmem : p ∈ sheetCoords sh)
    (hproc : processedAt (buildCovered sh.mergedRanges) (buildMasterOf sh.mergedRanges) p
      = true)
    (hv : sh.val p = .text s) (hq : (strNonempty s && hasCJK s) = true)
    (htr : tr (pyStrip s) = some τ) :
    pyStrip s ∈ cacheKeys (translate_excel_sheets tr wb).2 :=
  runSheets_key tr wb.sheets 0 initState i nm sh p s τ hget hmem hproc hv hq htr

theorem tes_calls (tr : String → Option String) (wb : Workbook) :
    (∀ e ∈ (translate_excel_sheets tr wb).2.calls, ∃ k nm sh,
      wb.sheets.get? k = some (nm, sh) ∧ e.1 = k ∧ e.2.1 ∈ sheetCoords sh ∧
      processedAt (buildCovered sh.mergedRanges) (buildMasterOf sh.mergedRanges) e.2.1
        = true) ∧
    ∀ (j : Nat) (q : Coord),
      (translate_excel_sheets tr wb).2.calls.countP (fun e => e.1 == j && e.2.1 == q) ≤ 1 := by
  obtain ⟨ext, he, hall, hcnt⟩ := runSheets_calls tr wb.sheets 0 initState
  have hcalls : (translate_excel_sheets tr wb).2.calls = ext := by
    show (runSheets tr 0 wb.sheets initState).2.calls = ext
    rw [he]
    rfl
  constructor
  · intro e hmem
    rw [hcalls] at hmem
    obtain ⟨k, nm, sh, h1, h2, h3, h4⟩ := hall e hmem
    exact ⟨k, nm, sh, h1, by omega, h3, h4⟩
  · intro j q
    rw [hcalls]
    exact hcnt j q

theorem tes_get_none {tr : String → Option String} {wb : Workbook} {i : Nat}
    (h : wb.sheets.get? i = none) :
    (translate_excel_sheets tr wb).1.sheets.get? i = none :=
  runSheets_get_none tr h 0 initState

/-! ### Fixtures for witnesses and counterexamples -/

def trW : String → Option String := fun s => if s = "中" then some "Z" else none

def trN : String → Option String := fun _ => none

def shW : Sheet :=
  { maxRow := 1, maxCol := 2, mergedRanges := [],
    val := fun p => if p = (1, 1) then .text "中" else if p = (1, 2) then .text "hi" else .blank,
    align := fun _ => ⟨false, none⟩, width := fun _ => none }

def wbW : Workbook := ⟨[("S", shW)]⟩

def shF : Sheet :=
  { maxRow := 1, maxCol := 1, mergedRanges := [],
    val := fun _ => .text " 中 ", align := fun _ => ⟨false, none⟩, width := fun _ => none }

def wbF : Workbook := ⟨[("S", shF)]⟩

def shA : Sheet :=
  { maxRow := 1, maxCol := 1, mergedRanges := [],
    val := fun _ => .text "中", align := fun _ => ⟨false, none⟩, width := fun _ => none }

def shB : Sheet :=
  { maxRow := 1, maxCol := 1, mergedRanges := [],
    val := fun _ => .text " 中 ", align := fun _ => ⟨false, none⟩, width := fun _ => none }

def wbAB : Workbook := ⟨[("A", shA), ("B", shB)]⟩

def sh2 : Sheet :=
  { maxRow := 1, maxCol := 2, mergedRanges := [],
    val := fun _ => .text "中", align := fun _ => ⟨false, none⟩, width := fun _ => none }

def wb2 : Workbook := ⟨[("S", sh2)]⟩

def shM : Sheet :=
  { maxRow := 2, maxCol := 2, mergedRanges := [⟨1, 1, 2, 2⟩],
    val := fun _ => .text "中", align := fun _ => ⟨false, none⟩, width := fun _ => none }

def wbM : Workbook := ⟨[("S", shM)]⟩

/-! ### Claim C2 -/

/-- C2: in the all-sheets run, every in-range master-or-unmapped cell whose
value is a nonempty string containing a code point in U+4E00-U+9FFF, and for
which the translator succeeds on the trimmed text, ends up holding the
translator output, a newline, then the trimmed original; and every cell
whose value does not qualify (non-textual or without such a code point) is
byte-for-byte unchanged. -/
theorem cjk_master_bilingual (tr : String → Option String) (wb : Workbook) (i : Nat)
    (nm : String) (sh : Sheet) (p : Coord)
    (hget : wb.sheets.get? i = some (nm, sh)) :
    (∀ s τ : String, sh.val p = .text s → strNonempty s = true → hasCJK s = true →
      p ∈ sheetCoords sh →
      processedAt (buildCovered sh.mergedRanges) (buildMasterOf sh.mergedRanges) p = true →
      tr (pyStrip s) = some τ →
      getSheetVal (translate_excel_sheets tr wb).1 i p = .text (τ ++ "\n" ++ pyStrip s)) ∧
    (qualifies (sh.val p) = false →
      getSheetVal (translate_excel_sheets tr wb).1 i p = sh.val p) := by
  constructor
  · intro s τ hv hne hcjk hmem hproc htr
    rw [tes_val tr wb i nm sh p hget, specNewVal]
    have hcond : cellCond sh p = true := by
      rw [cellCond, hv]
      simp [hmem, hproc, qualifies, hne, hcjk]
    rw [if_pos hcond, hv]
    simp [textOf, specTranslate, htr]
  · intro hq
    rw [tes_val tr wb i nm sh p hget, specNewVal]
    have hcond : cellCond sh p = false := by
      rw [cellCond]
      simp [hq]
    simp [hcond]

/-- Witness for C2: the translator maps 中 to Z, the qualifying cell becomes
bilingual, the non-qualifying cell is unchanged. -/
theorem cjk_master_bilingual_witness :
    getSheetVal (translate_excel_sheets trW wbW).1 0 (1, 1) = .text ("Z" ++ "\n" ++ "中") ∧
    getSheetVal (translate_excel_sheets trW wbW).1 0 (1, 2) = .text "hi" := by
  have h := cjk_master_bilingual trW wbW 0 "S" shW (1, 1) rfl
  have h2 := cjk_master_bilingual trW wbW 0 "S" shW (1, 2) rfl
  constructor
  · have hx := h.1 "中" "Z" (by decide) (by decide) (by decide) (by decide) (by decide)
      (by decide)
    rwa [show pyStrip "中" = "中" from by decide] at hx
  · have hx := h2.2 (by decide)
    rwa [show shW.val (1, 2) = .text "hi" from by decide] at hx

/-! ### Claim C1 (corrected) -/

/-- C1 counterexample: for the qualifying cell `(1, 1)` holding `" 中 "`
(with surrounding spaces) and a translator that always fails, the
all-sheets run stores the trimmed text `"中"` (not the original
byte-for-byte) and still sets the wrap+top presentation, refuting the
claim that the value is unchanged and the presentation untouched. -/
theorem failed_translation_cex :
    shF.val (1, 1) = .text " 中 " ∧ hasCJK " 中 " = true ∧
    trN (pyStrip " 中 ") = none ∧
    getSheetVal (translate_excel_sheets trN wbF).1 0 (1, 1) = .text "中" ∧
    CellVal.text "中" ≠ CellVal.text " 中 " ∧
    getSheetAlign (translate_excel_sheets trN wbF).1 0 (1, 1) = ⟨true, some "top"⟩ ∧
    shF.align (1, 1) = ⟨false, none⟩ := by decide

/-- C1 amended: when the translator fails for a qualifying cell's text, the
all-sheets run stores the trimmed original (so the value is unchanged
exactly when it had no surrounding whitespace) and still applies wrap+top
presentation; the failure is only reported, the traversal continues, and
the run completes. -/
theorem failed_translation_leaves_trimmed (tr : String → Option String) (wb : Workbook)
    (i : Nat) (nm : String) (sh : Sheet) (p : Coord) (s : String)
    (hget : wb.sheets.get? i = some (nm, sh))
    (hv : sh.val p = .text s) (hne : strNonempty s = true) (hcjk : hasCJK s = true)
    (hmem : p ∈ sheetCoords sh)
    (hproc : processedAt (buildCovered sh.mergedRanges) (buildMasterOf sh.mergedRanges) p
      = true)
    (hfail : tr (pyStrip s) = none) :
    getSheetVal (translate_excel_sheets tr wb).1 i p = .text (pyStrip s) ∧
    getSheetAlign (translate_excel_sheets tr wb).1 i p = ⟨true, some "top"⟩ := by
  have hcond : cellCond sh p = true := by
    rw [cellCond, hv]
    simp [hmem, hproc, qualifies, hne, hcjk]
  constructor
  · rw [tes_val tr wb i nm sh p hget, specNewVal, if_pos hcond, hv]
    simp [textOf, specTranslate, hfail]
  · rw [tes_align tr wb i nm sh p hget, if_pos hcond]

/-- Witness for the amended C1 on the concrete failing run. -/
theorem failed_translation_leaves_trimmed_witness :
    getSheetVal (translate_excel_sheets trN wbF).1 0 (1, 1) = .text "中" ∧
    getSheetAlign (translate_excel_sheets trN wbF).1 0 (1, 1) = ⟨true, some "top"⟩ := by
  have h := failed_translation_leaves_trimmed trN wbF 0 "S" shF (1, 1) " 中 " rfl
    (by decide) (by decide) (by decide) (by decide) (by decide) rfl
  rwa [show pyStrip " 中 " = "中" from by decide] at h

/-! ### Claim C3 (corrected) -/

/-- C3 counterexample: two qualifying master cells share the text 中, the
translator fails for it, and the run invokes the translator twice (failed
texts are retried, not cached), refuting the unconditional "invoked
exactly once". -/
theorem cache_translate_once_cex :
    sh2.val (1, 1) = .text "中" ∧ sh2.val (1, 2) = .text "中" ∧ sh2.mergedRanges = [] ∧
    callsFor (translate_excel_sheets trN wb2).2 "中" = 2 := by decide

/-- C3 amended: if the same trimmed text occurs in two distinct qualifying
master cells (same or different sheets) and the translator succeeds for
that text, the translator is invoked exactly once for it during the run
and both cells receive the identical bilingual result. -/
theorem cache_translate_once (tr : String → Option String) (wb : Workbook) (i j : Nat)
    (nm1 nm2 : String) (sh1 sh2 : Sheet) (p q : Coord) (s1 s2 τ : String)
    (hget1 : wb.sheets.get? i = some (nm1, sh1))
    (hget2 : wb.sheets.get? j = some (nm2, sh2))
    (hv1 : sh1.val p = .text s1) (hne1 : strNonempty s1 = true) (hcjk1 : hasCJK s1 = true)
    (hmem1 : p ∈ sheetCoords sh1)
    (hproc1 : processedAt (buildCovered sh1.mergedRanges) (buildMasterOf sh1.mergedRanges) p
      = true)
    (hv2 : sh2.val q = .text s2) (hne2 : strNonempty s2 = true) (hcjk2 : hasCJK s2 = true)
    (hmem2 : q ∈ sheetCoords sh2)
    (hproc2 : processedAt (buildCovered sh2.mergedRanges) (buildMasterOf sh2.mergedRanges) q
      = true)
    (htrim : pyStrip s1 = pyStrip s2)
    (hdistinct : (i, p) ≠ (j, q))
    (hsucc : tr (pyStrip s1) = some τ) :
    callsFor (translate_excel_sheets tr wb).2 (pyStrip s1) = 1 ∧
    getSheetVal (translate_excel_sheets tr wb).1 i p = .text (τ ++ "\n" ++ pyStrip s1) ∧
    getSheetVal (translate_excel_sheets tr wb).1 j q = .text (τ ++ "\n" ++ pyStrip s1) := by
  refine ⟨?_, ?_, ?_⟩
  · have hkey := tes_key hget1 hmem1 hproc1 hv1 (by simp [hne1, hcjk1]) hsucc
    exact (tes_once hsucc wb).1 hkey
  · rw [tes_val tr wb i nm1 sh1 p hget1, specNewVal]
    have hcond : cellCond sh1 p = true := by
      rw [cellCond, hv1]
      simp [hmem1, hproc1, qualifies, hne1, hcjk1]
    rw [if_pos hcond, hv1]
    simp [textOf, specTranslate, hsucc]
  · rw [tes_val tr wb j nm2 sh2 q hget2, specNewVal]
    have hcond : cellCond sh2 q = true := by
      rw [cellCond, hv2]
      simp [hmem2, hproc2, qualifies, hne2, hcjk2]
    rw [if_pos hcond, hv2]
    rw [htrim] at hsucc ⊢
    simp [textOf, specTranslate, hsucc]

/-- Witness for the amended C3: the texts 中 and " 中 " on two different
sheets trim to the same key; one external call serves both. -/
theorem cache_translate_once_witness :
    callsFor (translate_excel_sheets trW wbAB).2 "中" = 1 ∧
    getSheetVal (translate_excel_sheets trW wbAB).1 0 (1, 1) = .text ("Z" ++ "\n" ++ "中") ∧
    getSheetVal (translate_excel_sheets trW wbAB).1 1 (1, 1) = .text ("Z" ++ "\n" ++ "中") := by
  have h := cache_translate_once trW wbAB 0 1 "A" "B" shA shB (1, 1) (1, 1) "中" " 中 " "Z"
    rfl rfl (by decide) (by decide) (by decide) (by decide) (by decide)
    (by decide) (by decide) (by decide) (by decide) (by decide)
    (by decide) (by decide) (by decide)
  rwa [show pyStrip "中" = "中" from by decide] at h

/-! ### Claim C6 -/

/-- C6: for every in-range column, with L the maximum single-line length
over the column's eligible (master or unmapped) textual cells measured on
the post-translation values, the all-sheets run sets the column width to
`min(L + 2, 50)` when `L > 0` and leaves the stored width unmodified when
`L = 0`. -/
theorem column_width_law (tr : String → Option String) (wb : Workbook) (i : Nat)
    (nm : String) (sh : Sheet) (c : Nat) (hget : wb.sheets.get? i = some (nm, sh))
    (hc1 : 1 ≤ c) (hc2 : c ≤ sh.maxCol) :
    (0 < columnMaxLen sh.maxRow sh.mergedRanges (specNewVal tr sh) c →
      getSheetWidth (translate_excel_sheets tr wb).1 i c =
        some (min (columnMaxLen sh.maxRow sh.mergedRanges (specNewVal tr sh) c + 2) 50)) ∧
    (columnMaxLen sh.maxRow sh.mergedRanges (specNewVal tr sh) c = 0 →
      getSheetWidth (translate_excel_sheets tr wb).1 i c = sh.width c) := by
  have h := tes_width tr wb i nm sh c hget hc1 hc2
  constructor
  · intro hL
    rw [h, if_pos hL]
  · intro hL
    rw [h, hL]
    simp

/-- Witness for C6: column 1 has post-translation longest line 中 (length 1),
so its width becomes `min(1 + 2, 50) = 3`; column 2 gets `len "hi" + 2`. -/
theorem column_width_law_witness :
    getSheetWidth (translate_excel_sheets trW wbW).1 0 1 = some 3 ∧
    getSheetWidth (translate_excel_sheets trW wbW).1 0 2 = some 4 := by
  have h1 := (column_width_law trW wbW 0 "S" shW 1 rfl (by decide) (by decide)).1 (by decide)
  have h2 := (column_width_law trW wbW 0 "S" shW 2 rfl (by decide) (by decide)).1 (by decide)
  rw [show columnMaxLen shW.maxRow shW.mergedRanges (specNewVal trW shW) 1 = 1
    from by decide] at h1
  rw [show columnMaxLen shW.maxRow shW.mergedRanges (specNewVal trW shW) 2 = 2
    from by decide] at h2
  exact ⟨by simpa using h1, by simpa using h2⟩

/-! ### Claim C7 -/

theorem processedAt_eq_master {rs : List MergedRange} (hdisj : RangesDisjoint rs)
    {r : MergedRange} (hr : r ∈ rs) {p : Coord} (hp : p ∈ r.coords)
    (hproc : processedAt (buildCovered rs) (buildMasterOf rs) p = true) :
    p = (r.minRow, r.minCol) := by
  by_contra hne
  rw [processedAt_of_nonmaster hdisj hr hp hne] at hproc
  cases hproc

/-- C7: for a merged region R of a sheet with pairwise non-overlapping
regions, after the all-sheets run every non-master coordinate of R keeps
its value and presentation unchanged, every translator call attributed to
a coordinate of R on that sheet was made for R's master, and at most one
such call exists. -/
theorem region_exclusivity (tr : String → Option String) (wb : Workbook) (i : Nat)
    (nm : String) (sh : Sheet) (R : MergedRange)
    (hget : wb.sheets.get? i = some (nm, sh))
    (hR : R ∈ sh.mergedRanges) (hdisj : RangesDisjoint sh.mergedRanges) :
    (∀ p ∈ R.coords, p ≠ (R.minRow, R.minCol) →
      getSheetVal (translate_excel_sheets tr wb).1 i p = sh.val p ∧
      getSheetAlign (translate_excel_sheets tr wb).1 i p = sh.align p) ∧
    (∀ e ∈ (translate_excel_sheets tr wb).2.calls, e.1 = i → e.2.1 ∈ R.coords →
      e.2.1 = (R.minRow, R.minCol)) ∧
    (translate_excel_sheets tr wb).2.calls.countP
      (fun e => e.1 == i && decide (e.2.1 ∈ R.coords)) ≤ 1 := by
  obtain ⟨hall, hcnt⟩ := tes_calls tr wb
  refine ⟨?_, ?_, ?_⟩
  · intro p hp hne
    have hproc : processedAt (buildCovered sh.mergedRanges) (buildMasterOf sh.mergedRanges) p
        = false := processedAt_of_nonmaster hdisj hR hp hne
    have hcond : cellCond sh p = false := by
      rw [cellCond, hproc]
      simp
    constructor
    · rw [tes_val tr wb i nm sh p hget, specNewVal]
      simp [hcond]
    · rw [tes_align tr wb i nm sh p hget]
      simp [hcond]
  · intro e he hei heR
    obtain ⟨k, nm', sh', hget', hk, hmem', hproc'⟩ := hall e he
    rw [hei] at hk
    subst hk
    rw [hget'] at hget
    obtain ⟨h1, h2⟩ := Prod.mk.injEq .. |>.mp (Option.some.inj hget)
    subst h2
    exact processedAt_eq_master hdisj hR heR hproc'
  · refine le_trans (List.countP_mono_left ?_) (hcnt i (R.minRow, R.minCol))
    intro e he hx
    obtain ⟨hx1, hx2⟩ := Bool.and_eq_true .. |>.mp hx
    have hei : e.1 = i := by simpa using hx1
    have heR : e.2.1 ∈ R.coords := of_decide_eq_true hx2
    obtain ⟨k, nm', sh', hget', hk, hmem', hproc'⟩ := hall e he
    rw [hei] at hk
    subst hk
    rw [hget'] at hget
    obtain ⟨h1, h2⟩ := Prod.mk.injEq .. |>.mp (Option.some.inj hget)
    subst h2
    have := processedAt_eq_master hdisj hR heR hproc'
    simp [hx1, this]

/-- Witness for C7: a 2x2 merged region whose every coordinate stores 中;
only the master is translated, the non-master `(2, 2)` keeps its value, and
at most one call is attributed to the region. -/
theorem region_exclusivity_witness :
    getSheetVal (translate_excel_sheets trW wbM).1 0 (2, 2) = .text "中" ∧
    (translate_excel_sheets trW wbM).2.calls.countP
      (fun e => e.1 == 0 && decide (e.2.1 ∈ MergedRange.coords ⟨1, 1, 2, 2⟩)) ≤ 1 := by
  have h := region_exclusivity trW wbM 0 "S" shM ⟨1, 1, 2, 2⟩ rfl (by decide) (by decide)
  exact ⟨((h.1 (2, 2) (by decide) (by decide)).1).trans (by decide), h.2.2⟩

/-! ### Selected-sheets per-cell lemmas -/

theorem translateCellAtSel_val_ne {tr : String → Option String} {si : Nat} {sh : Sheet}
    {st : WalkState} {p : Coord} (q : Coord) (hq : q ≠ p) :
    (translateCellAtSel tr si sh st p).1.val q = sh.val q := by
  cases hv : sh.val p with
  | text s =>
    simp only [translateCellAtSel, hv]
    split
    · cases hc : cacheLookup st.cache (pyStrip s) with
      | some r => simp [updVal, hq]
      | none =>
        cases htr : tr (pyStrip s) with
        | some translated => simp [updVal, hq]
        | none => rfl
    · rfl
  | num n => simp [translateCellAtSel, hv]
  | blank => simp [translateCellAtSel, hv]
  | other => simp [translateCellAtSel, hv]

theorem translateCellAtSel_align_disj {tr : String → Option String} {si : Nat}
    {sh : Sheet} {st : WalkState} {p : Coord} (q : Coord) :
    (translateCellAtSel tr si sh st p).1.align q = sh.align q ∨
    (translateCellAtSel tr si sh st p).1.align q = ⟨true, none⟩ := by
  cases hv : sh.val p with
  | text s =>
    simp only [translateCellAtSel, hv]
    split
    · cases hc : cacheLookup st.cache (pyStrip s) with
      | some r => exact Or.inl rfl
      | none =>
        cases htr : tr (pyStrip s) with
        | some translated =>
          by_cases hq : q = p
          · exact Or.inr (by simp [updAlign, hq])
          · exact Or.inl (by simp [updAlign, hq])
        | none => exact Or.inl rfl
    · exact Or.inl rfl
  | num n => exact Or.inl (by simp [translateCellAtSel, hv])
  | blank => exact Or.inl (by simp [translateCellAtSel, hv])
  | other => exact Or.inl (by simp [translateCellAtSel, hv])

theorem translateCellAtSel_struct {tr : String → Option String} {si : Nat} {sh : Sheet}
    {st : WalkState} {p : Coord} :
    (translateCellAtSel tr si sh st p).1.maxRow = sh.maxRow ∧
    (translateCellAtSel tr si sh st p).1.maxCol = sh.maxCol ∧
    (translateCellAtSel tr si sh st p).1.mergedRanges = sh.mergedRanges ∧
    (translateCellAtSel tr si sh st p).1.width = sh.width := by
  cases hv : sh.val p with
  | text s =>
    simp only [translateCellAtSel, hv]
    split
    · cases hc : cacheLookup st.cache (pyStrip s) with
      | some r => exact ⟨rfl, rfl, rfl, rfl⟩
      | none =>
        cases htr : tr (pyStrip s) with
        | some translated => exact ⟨rfl, rfl, rfl, rfl⟩
        | none => exact ⟨rfl, rfl, rfl, rfl⟩
    · exact ⟨rfl, rfl, rfl, rfl⟩
  | num n => simp [translateCellAtSel, hv]
  | blank => simp [translateCellAtSel, hv]
  | other => simp [translateCellAtSel, hv]

theorem translateCellAtSel_val_self {tr : String → Option String} {st : WalkState}
    (hok : CacheOK tr st) (si : Nat) (sh : Sheet) (p : Coord) :
    (translateCellAtSel tr si sh st p).1.val p =
      if qualifies (sh.val p) = true then
        match tr (pyStrip (textOf (sh.val p))) with
        | some translated => .text (translated ++ "\n" ++ pyStrip (textOf (sh.val p)))
        | none => sh.val p
      else sh.val p := by
  cases hv : sh.val p with
  | text s =>
    simp only [translateCellAtSel, hv, qualifies, textOf]
    by_cases hq : (strNonempty s && hasCJK s) = true
    · rw [if_pos hq, if_pos hq]
      cases hc : cacheLookup st.cache (pyStrip s) with
      | some r =>
        obtain ⟨translated, htr, hr⟩ := hok _ _ (cacheLookup_mem hc)
        rw [htr]
        simp [updVal, hr]
      | none =>
        cases htr : tr (pyStrip s) with
        | some translated => simp [updVal]
        | none => exact hv
    · rw [if_neg hq, if_neg hq]
      exact hv
  | num n => simp [translateCellAtSel, hv, qualifies]
  | blank => simp [translateCellAtSel, hv, qualifies]
  | other => simp [translateCellAtSel, hv, qualifies]

theorem translateCellAtSel_cacheOK {tr : String → Option String} {st : WalkState}
    (hok : CacheOK tr st) (si : Nat) (sh : Sheet) (p : Coord) :
    CacheOK tr (translateCellAtSel tr si sh st p).2 := by
  cases hv : sh.val p with
  | text s =>
    simp only [translateCellAtSel, hv]
    split
    · cases hc : cacheLookup st.cache (pyStrip s) with
      | some r => exact hok
      | none =>
        cases htr : tr (pyStrip s) with
        | some translated =>
          intro t r hm
          rcases List.mem_cons.mp hm with h1 | h2
          · obtain ⟨rfl, rfl⟩ := Prod.mk.injEq .. |>.mp h1
            exact ⟨translated, htr, rfl⟩
          · exact hok t r h2
        | none => exact hok
    · exact hok
  | num n => simpa [translateCellAtSel, hv] using hok
  | blank => simpa [translateCellAtSel, hv] using hok
  | other => simpa [translateCellAtSel, hv] using hok

theorem processCellSel_val_ne {tr : String → Option String} {si : Nat}
    {covered : List Coord} {mo : Coord → Option Coord} (acc : Sheet × WalkState)
    (p q : Coord) (hq : q ≠ p) :
    (processCellSel tr si covered mo acc p).1.val q = acc.1.val q := by
  rw [processCellSel]
  split
  · exact translateCellAtSel_val_ne q hq
  · rfl

theorem processCellSel_align_disj {tr : String → Option String} {si : Nat}
    {covered : List Coord} {mo : Coord → Option Coord} (acc : Sheet × WalkState)
    (p q : Coord) :
    (processCellSel tr si covered mo acc p).1.align q = acc.1.align q ∨
    (processCellSel tr si covered mo acc p).1.align q = ⟨true, none⟩ := by
  rw [processCellSel]
  split
  · exact translateCellAtSel_align_disj q
  · exact Or.inl rfl

theorem processCellSel_struct {tr : String → Option String} {si : Nat}
    {covered : List Coord} {mo : Coord → Option Coord} (acc : Sheet × WalkState)
    (p : Coord) :
    (processCellSel tr si covered mo acc p).1.maxRow = acc.1.maxRow ∧
    (processCellSel tr si covered mo acc p).1.maxCol = acc.1.maxCol ∧
    (processCellSel tr si covered mo acc p).1.mergedRanges = acc.1.mergedRanges ∧
    (processCellSel tr si covered mo acc p).1.width = acc.1.width := by
  rw [processCellSel]
  split
  · exact translateCellAtSel_struct
  · exact ⟨rfl, rfl, rfl, rfl⟩

theorem processCellSel_val_self {tr : String → Option String} {si : Nat}
    {covered : List Coord} {mo : Coord → Option Coord} {sh : Sheet} {st : WalkState}
    (hok : CacheOK tr st) (p : Coord) :
    (processCellSel tr si covered mo (sh, st) p).1.val p =
      if (processedAt covered mo p && qualifies (sh.val p)) = true then
        match tr (pyStrip (textOf (sh.val p))) with
        | some translated => .text (translated ++ "\n" ++ pyStrip (textOf (sh.val p)))
        | none => sh.val p
      else sh.val p := by
  rw [processCellSel]
  by_cases hp : processedAt covered mo p = true
  · rw [if_pos hp]
    rw [translateCellAtSel_val_self hok si sh p]
    simp [hp]
  · rw [if_neg hp]
    have : (processedAt covered mo p && qualifies (sh.val p)) = false := by
      simp [Bool.eq_false_iff.mpr hp]
    simp [this]

theorem processCellSel_cacheOK {tr : String → Option String} {si : Nat}
    {covered : List Coord} {mo : Coord → Option Coord} {acc : Sheet × WalkState}
    (hok : CacheOK tr acc.2) (p : Coord) :
    CacheOK tr (processCellSel tr si covered mo acc p).2 := by
  rw [processCellSel]
  split
  · exact translateCellAtSel_cacheOK hok si acc.1 p
  · exact hok

/-! ### Selected-sheets fold lemmas -/

theorem foldl_processCellSel_frame {tr : String → Option String} {si : Nat}
    {covered : List Coord} {mo : Coord → Option Coord} (l : List Coord) :
    ∀ (sh : Sheet) (st : WalkState) (p : Coord), p ∉ l →
      (l.foldl (processCellSel tr si covered mo) (sh, st)).1.val p = sh.val p := by
  induction l with
  | nil => intro sh st p _; rfl
  | cons a t ih =>
    intro sh st p hp
    have hpa : p ≠ a := fun h => hp (h ▸ List.mem_cons_self a t)
    have hpt : p ∉ t := fun h => hp (List.mem_cons_of_mem a h)
    rw [List.foldl_cons]
    have hstep := ih (processCellSel tr si covered mo (sh, st) a).1
      (processCellSel tr si covered mo (sh, st) a).2 p hpt
    rw [Prod.mk.eta] at hstep
    rw [hstep]
    exact processCellSel_val_ne (sh, st) a p hpa

theorem foldl_processCellSel_struct {tr : String → Option String} {si : Nat}
    {covered : List Coord} {mo : Coord → Option Coord} (l : List Coord) :
    ∀ (sh : Sheet) (st : WalkState),
      (l.foldl (processCellSel tr si covered mo) (sh, st)).1.maxRow = sh.maxRow ∧
      (l.foldl (processCellSel tr si covered mo) (sh, st)).1.maxCol = sh.maxCol ∧
      (l.foldl (processCellSel tr si covered mo) (sh, st)).1.mergedRanges
        = sh.mergedRanges ∧
      (l.foldl (processCellSel tr si covered mo) (sh, st)).1.width = sh.width := by
  induction l with
  | nil => intro sh st; exact ⟨rfl, rfl, rfl, rfl⟩
  | cons a t ih =>
    intro sh st
    rw [List.foldl_cons]
    have hstep := ih (processCellSel tr si covered mo (sh, st) a).1
      (processCellSel tr si covered mo (sh, st) a).2
    rw [Prod.mk.eta] at hstep
    obtain ⟨s1, s2, s3, s4⟩ := processCellSel_struct (sh, st) a
    exact ⟨hstep.1.trans s1, hstep.2.1.trans s2, hstep.2.2.1.trans s3, hstep.2.2.2.trans s4⟩

theorem foldl_processCellSel_cacheOK {tr : String → Option String} {si : Nat}
    {covered : List Coord} {mo : Coord → Option Coord} (l : List Coord) :
    ∀ (sh : Sheet) (st : WalkState), CacheOK tr st →
      CacheOK tr (l.foldl (processCellSel tr si covered mo) (sh, st)).2 := by
  induction l with
  | nil => intro sh st hok; exact hok
  | cons a t ih =>
    intro sh st hok
    rw [List.foldl_cons]
    have hstep := ih (processCellSel tr si covered mo (sh, st) a).1
      (processCellSel tr si covered mo (sh, st) a).2 (processCellSel_cacheOK hok a)
    rwa [Prod.mk.eta] at hstep

theorem foldl_processCellSel_val {tr : String → Option String} {si : Nat}
    {covered : List Coord} {mo : Coord → Option Coord} (l : List Coord) :
    ∀ (sh : Sheet) (st : WalkState), l.Nodup → CacheOK tr st → ∀ p : Coord,
      (l.foldl (processCellSel tr si covered mo) (sh, st)).1.val p =
        if p ∈ l ∧ (processedAt covered mo p && qualifies (sh.val p)) = true then
          match tr (pyStrip (textOf (sh.val p))) with
          | some translated => .text (translated ++ "\n" ++ pyStrip (textOf (sh.val p)))
          | none => sh.val p
        else sh.val p := by
  induction l with
  | nil => intro sh st _ _ p; simp
  | cons a t ih =>
    intro sh st hnd hok p
    obtain ⟨hat, hndt⟩ := List.nodup_cons.mp hnd
    rw [List.foldl_cons]
    by_cases hpa : p = a
    · subst hpa
      have hfr := @foldl_processCellSel_frame tr si covered mo t
        (processCellSel tr si covered mo (sh, st) p).1
        (processCellSel tr si covered mo (sh, st) p).2 p hat
      rw [Prod.mk.eta] at hfr
      rw [hfr, processCellSel_val_self hok p]
      by_cases hc : (processedAt covered mo p && qualifies (sh.val p)) = true
      · simp [hc]
      · simp [hc]
    · have hstep := ih (processCellSel tr si covered mo (sh, st) a).1
        (processCellSel tr si covered mo (sh, st) a).2 hndt (processCellSel_cacheOK hok a) p
      rw [Prod.mk.eta] at hstep
      rw [hstep, processCellSel_val_ne (sh, st) a p hpa]
      by_cases hpt : p ∈ t
      · simp [hpt, hpa]
      · simp [hpt, hpa]

theorem foldl_processCellSel_align {tr : String → Option String} {si : Nat}
    {covered : List Coord} {mo : Coord → Option Coord} (l : List Coord) :
    ∀ (sh : Sheet) (st : WalkState) (p : Coord),
      (l.foldl (processCellSel tr si covered mo) (sh, st)).1.align p = sh.align p ∨
      (l.foldl (processCellSel tr si covered mo) (sh, st)).1.align p = ⟨true, none⟩ := by
  induction l with
  | nil => intro sh st p; exact Or.inl rfl
  | cons a t ih =>
    intro sh st p
    rw [List.foldl_cons]
    have hstep := ih (processCellSel tr si covered mo (sh, st) a).1
      (processCellSel tr si covered mo (sh, st) a).2 p
    rw [Prod.mk.eta] at hstep
    rcases hstep with h | h
    · rw [h]
      exact processCellSel_align_disj (sh, st) a p
    · exact Or.inr h

/-! ### walkSheetSel characterization -/

theorem walkSheetSel_val {tr : String → Option String} {st : WalkState}
    (hok : CacheOK tr st) (si : Nat) (sh : Sheet) (p : Coord) :
    (walkSheetSel tr si sh st).1.val p = specNewValSel tr sh p := by
  rw [walkSheetSel, foldl_processCellSel_val (sheetCoords sh) sh st (sheetCoords_nodup sh)
    hok p, specNewValSel, cellCond]
  by_cases hmem : p ∈ sheetCoords sh
  · by_cases hc : (processedAt (buildCovered sh.mergedRanges) (buildMasterOf sh.mergedRanges) p
        && qualifies (sh.val p)) = true
    · simp [hmem, hc, Bool.and_assoc]
    · simp [hmem, hc, Bool.and_assoc]
  · simp [hmem]

theorem walkSheetSel_align_disj {tr : String → Option String} (si : Nat) (sh : Sheet)
    (st : WalkState) (p : Coord) :
    (walkSheetSel tr si sh st).1.align p = sh.align p ∨
    (walkSheetSel tr si sh st).1.align p = ⟨true, none⟩ :=
  foldl_processCellSel_align (sheetCoords sh) sh st p

theorem walkSheetSel_struct {tr : String → Option String} (si : Nat) (sh : Sheet)
    (st : WalkState) :
    (walkSheetSel tr si sh st).1.maxRow = sh.maxRow ∧
    (walkSheetSel tr si sh st).1.maxCol = sh.maxCol ∧
    (walkSheetSel tr si sh st).1.mergedRanges = sh.mergedRanges ∧
    (walkSheetSel tr si sh st).1.width = sh.width :=
  foldl_processCellSel_struct (sheetCoords sh) sh st

theorem walkSheetSel_cacheOK {tr : String → Option String} {st : WalkState}
    (hok : CacheOK tr st) (si : Nat) (sh : Sheet) :
    CacheOK tr (walkSheetSel tr si sh st).2 :=
  foldl_processCellSel_cacheOK (sheetCoords sh) sh st hok

/-! ### Selected-sheets run lemmas -/

theorem findSheet_some {l : List (String × Sheet)} {nm : String} {i : Nat}
    (h : findSheet l nm = some i) : ∃ e, l.get? i = some e ∧ e.1 = nm := by
  induction l generalizing i with
  | nil => cases h
  | cons e rest ih =>
    rw [findSheet] at h
    split at h
    · next heq =>
      cases h
      exact ⟨e, rfl, heq⟩
    · next hne =>
      cases hfs : findSheet rest nm with
      | none => rw [hfs] at h; cases h
      | some k =>
        rw [hfs] at h
        have hik : i = k + 1 := by
          simpa using h.symm
        subst hik
        obtain ⟨e', h1, h2⟩ := ih hfs
        exact ⟨e', by simpa using h1, h2⟩

theorem findSheet_of_nodup {l : List (String × Sheet)} {nm : String} {i : Nat} {sh : Sheet}
    (hnd : (l.map Prod.fst).Nodup) (hget : l.get? i = some (nm, sh)) :
    findSheet l nm = some i := by
  induction l generalizing i with
  | nil => cases hget
  | cons e rest ih =>
    rw [List.map_cons] at hnd
    obtain ⟨hhead, hrest⟩ := List.nodup_cons.mp hnd
    cases i with
    | zero =>
      have he : e = (nm, sh) := Option.some.inj hget
      subst he
      rw [findSheet]
      simp
    | succ i =>
      have hmem : nm ∈ rest.map Prod.fst := by
        have : (nm, sh) ∈ rest := List.get?_mem hget
        exact List.mem_map.mpr ⟨(nm, sh), this, rfl⟩
      have hne : e.1 ≠ nm := fun hcon => hhead (hcon ▸ hmem)
      rw [findSheet, if_neg hne, ih hrest hget]
      rfl

theorem map_fst_set {l : List (String × Sheet)} {i : Nat} {e : String × Sheet}
    (hget : l.get? i = some e) (nm : String) (hnm : e.1 = nm) (sh' : Sheet) :
    (l.set i (nm, sh')).map Prod.fst = l.map Prod.fst := by
  apply List.ext_get?
  intro n
  rw [List.get?_map, List.get?_map, List.get?_set]
  by_cases hn : i = n
  · subst hn
    rw [hget]
    simp [hnm]
  · simp [hn]

theorem selStep_eq_skip {tr : String → Option String} {acc : Workbook × WalkState}
    {nm : String} (hfs : findSheet acc.1.sheets nm = none) :
    selStep tr acc nm = acc := by
  rw [selStep, hfs]

theorem selStep_eq_missing {tr : String → Option String} {acc : Workbook × WalkState}
    {nm : String} {k : Nat} (hfs : findSheet acc.1.sheets nm = some k)
    (hgk : acc.1.sheets.get? k = none) :
    selStep tr acc nm = acc := by
  have h1 : selStep tr acc nm =
      match acc.1.sheets.get? k with
      | some e =>
        (⟨acc.1.sheets.set k (nm, (walkSheetSel tr k e.2 acc.2).1)⟩,
         (walkSheetSel tr k e.2 acc.2).2)
      | none => acc := by
    rw [selStep, hfs]
  rw [h1, hgk]

theorem selStep_eq_found {tr : String → Option String} {acc : Workbook × WalkState}
    {nm : String} {k : Nat} {e : String × Sheet}
    (hfs : findSheet acc.1.sheets nm = some k) (hgk : acc.1.sheets.get? k = some e) :
    selStep tr acc nm =
      (⟨acc.1.sheets.set k (nm, (walkSheetSel tr k e.2 acc.2).1)⟩,
       (walkSheetSel tr k e.2 acc.2).2) := by
  have h1 : selStep tr acc nm =
      match acc.1.sheets.get? k with
      | some e =>
        (⟨acc.1.sheets.set k (nm, (walkSheetSel tr k e.2 acc.2).1)⟩,
         (walkSheetSel tr k e.2 acc.2).2)
      | none => acc := by
    rw [selStep, hfs]
  rw [h1, hgk]

theorem selStep_names (tr : String → Option String) (acc : Workbook × WalkState)
    (nm : String) :
    (selStep tr acc nm).1.sheets.map Prod.fst = acc.1.sheets.map Prod.fst := by
  cases hfs : findSheet acc.1.sheets nm with
  | none => rw [selStep_eq_skip hfs]
  | some k =>
    cases hgk : acc.1.sheets.get? k with
    | none => rw [selStep_eq_missing hfs hgk]
    | some e =>
      rw [selStep_eq_found hfs hgk]
      obtain ⟨e', h1, h2⟩ := findSheet_some hfs
      rw [hgk] at h1
      have he : e = e' := Option.some.inj h1
      subst he
      exact map_fst_set hgk nm h2 _

theorem selStep_cacheOK {tr : String → Option String} {acc : Workbook × WalkState}
    (hok : CacheOK tr acc.2) (nm : String) :
    CacheOK tr (selStep tr acc nm).2 := by
  cases hfs : findSheet acc.1.sheets nm with
  | none => rw [selStep_eq_skip hfs]; exact hok
  | some k =>
    cases hgk : acc.1.sheets.get? k with
    | none => rw [selStep_eq_missing hfs hgk]; exact hok
    | some e =>
      rw [selStep_eq_found hfs hgk]
      exact walkSheetSel_cacheOK hok k e.2

theorem selStep_align (tr : String → Option String) (acc : Workbook × WalkState)
    (nm : String) (n : Nat) (p : Coord) :
    getSheetAlign (selStep tr acc nm).1 n p = getSheetAlign acc.1 n p ∨
    getSheetAlign (selStep tr acc nm).1 n p = ⟨true, none⟩ := by
  cases hfs : findSheet acc.1.sheets nm with
  | none => rw [selStep_eq_skip hfs]; exact Or.inl rfl
  | some k =>
    cases hgk : acc.1.sheets.get? k with
    | none => rw [selStep_eq_missing hfs hgk]; exact Or.inl rfl
    | some e =>
      rw [selStep_eq_found hfs hgk]
      simp only [getSheetAlign]
      rw [List.get?_set]
      by_cases hk : k = n
      · subst hk
        rw [hgk]
        simp only [if_pos rfl, Option.map_some']
        exact walkSheetSel_align_disj k e.2 acc.2 p
      · rw [if_neg hk]
        exact Or.inl rfl

theorem selStep_width (tr : String → Option String) (acc : Workbook × WalkState)
    (nm : String) (n : Nat) (c : Nat) :
    getSheetWidth (selStep tr acc nm).1 n c = getSheetWidth acc.1 n c := by
  cases hfs : findSheet acc.1.sheets nm with
  | none => rw [selStep_eq_skip hfs]
  | some k =>
    cases hgk : acc.1.sheets.get? k with
    | none => rw [selStep_eq_missing hfs hgk]
    | some e =>
      rw [selStep_eq_found hfs hgk]
      simp only [getSheetWidth]
      rw [List.get?_set]
      by_cases hk : k = n
      · subst hk
        rw [hgk]
        simp [(walkSheetSel_struct k e.2 acc.2).2.2.2]
      · rw [if_neg hk]

theorem selStep_untouched {tr : String → Option String} {acc : Workbook × WalkState}
    {nm : String} {i0 : Nat} {nm0 : String} {sh0 : Sheet}
    (hget : acc.1.sheets.get? i0 = some (nm0, sh0)) (hne : nm ≠ nm0) :
    (selStep tr acc nm).1.sheets.get? i0 = some (nm0, sh0) := by
  cases hfs : findSheet acc.1.sheets nm with
  | none => rw [selStep_eq_skip hfs]; exact hget
  | some k =>
    cases hgk : acc.1.sheets.get? k with
    | none => rw [selStep_eq_missing hfs hgk]; exact hget
    | some e =>
      rw [selStep_eq_found hfs hgk]
      obtain ⟨e', h1, h2⟩ := findSheet_some hfs
      rw [hgk] at h1
      have he : e = e' := Option.some.inj h1
      subst he
      have hk : k ≠ i0 := by
        intro hcon
        subst hcon
        rw [hget] at hgk
        have hx : (nm0, sh0) = e := Option.some.inj hgk
        exact hne (by rw [← h2, ← hx])
      show (acc.1.sheets.set k _).get? i0 = _
      rw [List.get?_set, if_neg hk]
      exact hget

theorem foldl_selStep_cacheOK (tr : String → Option String) (ns : List String) :
    ∀ acc : Workbook × WalkState, CacheOK tr acc.2 →
      CacheOK tr (ns.foldl (selStep tr) acc).2 := by
  induction ns with
  | nil => intro acc hok; exact hok
  | cons a t ih =>
    intro acc hok
    rw [List.foldl_cons]
    exact ih (selStep tr acc a) (selStep_cacheOK hok a)

theorem foldl_selStep_align (tr : String → Option String) (ns : List String) :
    ∀ (acc : Workbook × WalkState) (n : Nat) (p : Coord),
      getSheetAlign (ns.foldl (selStep tr) acc).1 n p = getSheetAlign acc.1 n p ∨
      getSheetAlign (ns.foldl (selStep tr) acc).1 n p = ⟨true, none⟩ := by
  induction ns with
  | nil => intro acc n p; exact Or.inl rfl
  | cons a t ih =>
    intro acc n p
    rw [List.foldl_cons]
    rcases ih (selStep tr acc a) n p with h | h
    · rw [h]
      exact selStep_align tr acc a n p
    · exact Or.inr h

theorem foldl_selStep_width (tr : String → Option String) (ns : List String) :
    ∀ (acc : Workbook × WalkState) (n : Nat) (c : Nat),
      getSheetWidth (ns.foldl (selStep tr) acc).1 n c = getSheetWidth acc.1 n c := by
  induction ns with
  | nil => intro acc n c; rfl
  | cons a t ih =>
    intro acc n c
    rw [List.foldl_cons, ih (selStep tr acc a) n c, selStep_width tr acc a n c]

theorem foldl_selStep_untouched {tr : String → Option String} (ns : List String) :
    ∀ (acc : Workbook × WalkState) (i0 : Nat) (nm0 : String) (sh0 : Sheet), nm0 ∉ ns →
      acc.1.sheets.get? i0 = some (nm0, sh0) →
      (ns.foldl (selStep tr) acc).1.sheets.get? i0 = some (nm0, sh0) := by
  induction ns with
  | nil => intro acc i0 nm0 sh0 _ hget; exact hget
  | cons a t ih =>
    intro acc i0 nm0 sh0 hnm hget
    have hna : a ≠ nm0 := fun h => hnm (h ▸ List.mem_cons_self a t)
    have hnt : nm0 ∉ t := fun h => hnm (List.mem_cons_of_mem a h)
    rw [List.foldl_cons]
    exact ih (selStep tr acc a) i0 nm0 sh0 hnt (selStep_untouched hget hna)

theorem count_eq_one_split {ns : List String} {nm : String} (h : ns.count nm = 1) :
    ∃ ns1 ns2, ns = ns1 ++ nm :: ns2 ∧ nm ∉ ns1 ∧ nm ∉ ns2 := by
  induction ns with
  | nil => simp at h
  | cons a t ih =>
    by_cases ha : a = nm
    · subst ha
      have ht : t.count a = 0 := by
        rw [List.count_cons_self] at h
        omega
      exact ⟨[], t, rfl, by simp, List.count_eq_zero.mp ht⟩
    · have ht : t.count nm = 1 := by
        rw [List.count_cons] at h
        simpa [ha] using h
      obtain ⟨ns1, ns2, h1, h2, h3⟩ := ih ht
      refine ⟨a :: ns1, ns2, by rw [h1]; rfl, ?_, h3⟩
      intro hmem
      rcases List.mem_cons.mp hmem with hx | hx
      · exact ha hx.symm
      · exact h2 hx

theorem foldl_selStep_names (tr : String → Option String) (ns : List String) :
    ∀ acc : Workbook × WalkState,
      (ns.foldl (selStep tr) acc).1.sheets.map Prod.fst = acc.1.sheets.map Prod.fst := by
  induction ns with
  | nil => intro acc; rfl
  | cons a t ih =>
    intro acc
    rw [List.foldl_cons, ih (selStep tr acc a), selStep_names tr acc a]

theorem sel_run_entry {tr : String → Option String} {wb : Workbook} {names : List String}
    {i : Nat} {nm : String} {sh : Sheet}
    (hnd : (wb.sheets.map Prod.fst).Nodup)
    (hcount : names.count nm = 1)
    (hget : wb.sheets.get? i = some (nm, sh)) :
    ∃ st', CacheOK tr st' ∧
      (translate_selected_sheets tr wb names).1.sheets.get? i
        = some (nm, (walkSheetSel tr i sh st').1) := by
  obtain ⟨ns1, ns2, hsplit, hn1, hn2⟩ := count_eq_one_split hcount
  rw [translate_selected_sheets, hsplit, List.foldl_append, List.foldl_cons]
  have hget1 : (ns1.foldl (selStep tr) (wb, initState)).1.sheets.get? i = some (nm, sh) :=
    foldl_selStep_untouched ns1 (wb, initState) i nm sh hn1 hget
  have hok1 : CacheOK tr (ns1.foldl (selStep tr) (wb, initState)).2 :=
    foldl_selStep_cacheOK tr ns1 (wb, initState) (initState_cacheOK tr)
  have hnames1 : (ns1.foldl (selStep tr) (wb, initState)).1.sheets.map Prod.fst
      = wb.sheets.map Prod.fst := foldl_selStep_names tr ns1 (wb, initState)
  have hfs : findSheet (ns1.foldl (selStep tr) (wb, initState)).1.sheets nm = some i :=
    findSheet_of_nodup (by rw [hnames1]; exact hnd) hget1
  have hstep := @selStep_eq_found tr (ns1.foldl (selStep tr) (wb, initState)) nm i
    (nm, sh) hfs hget1
  rw [hstep]
  refine ⟨(ns1.foldl (selStep tr) (wb, initState)).2, hok1, ?_⟩
  have hget2 : ((ns1.foldl (selStep tr) (wb, initState)).1.sheets.set i
      (nm, (walkSheetSel tr i sh (ns1.foldl (selStep tr) (wb, initState)).2).1)).get? i
        = some (nm, (walkSheetSel tr i sh (ns1.foldl (selStep tr) (wb, initState)).2).1) := by
    rw [List.get?_set, if_pos rfl, hget1]
    rfl
  exact foldl_selStep_untouched ns2 _ i nm _ hn2 hget2

/-! ### Claim C8 (corrected) -/

/-- C8 counterexample: in the selected-sheets operation the second cell
holding 中 is served from the cache: its value is mutated to the bilingual
string but its presentation is left untouched (neither wrap nor top is
set), refuting "every mutated cell gets wrap-enabled top alignment" for
both entry operations. -/
theorem mutated_presentation_cex :
    getSheetVal (translate_selected_sheets trW wb2 ["S"]).1 0 (1, 2)
      = .text ("Z" ++ "\n" ++ "中") ∧
    getSheetVal wb2 0 (1, 2) = .text "中" ∧
    getSheetAlign (translate_selected_sheets trW wb2 ["S"]).1 0 (1, 2) = ⟨false, none⟩ ∧
    (⟨false, none⟩ : Alignment) ≠ ⟨true, some "top"⟩ := by decide

/-- C8 amended: in the all-sheets operation every cell whose value changed
has wrap-enabled top-aligned presentation (including cache-served cells);
in the selected-sheets operation a mutated cell's presentation is either
left unchanged (cache hit) or set to wrap-enabled without vertical
alignment (cache miss). -/
theorem mutated_presentation (tr : String → Option String) (wb : Workbook)
    (names : List String) (i : Nat) (p q : Coord)
    (hA : getSheetVal (translate_excel_sheets tr wb).1 i p ≠ getSheetVal wb i p)
    (hS : getSheetVal (translate_selected_sheets tr wb names).1 i q ≠ getSheetVal wb i q) :
    getSheetAlign (translate_excel_sheets tr wb).1 i p = ⟨true, some "top"⟩ ∧
    (getSheetAlign (translate_selected_sheets tr wb names).1 i q = getSheetAlign wb i q ∨
     getSheetAlign (translate_selected_sheets tr wb names).1 i q = ⟨true, none⟩) := by
  constructor
  · cases hget : wb.sheets.get? i with
    | none =>
      exfalso
      apply hA
      have h1 : (translate_excel_sheets tr wb).1.sheets.get? i = none := tes_get_none hget
      simp only [getSheetVal]
      rw [hget, h1]
    | some e =>
      cases e with
      | mk nm sh =>
        have hval := tes_val tr wb i nm sh p hget
        have horig : getSheetVal wb i p = sh.val p := by
          simp only [getSheetVal]
          rw [hget]
        have hcond : cellCond sh p = true := by
          by_contra hc
          apply hA
          rw [hval, horig, specNewVal]
          simp [hc]
        rw [tes_align tr wb i nm sh p hget, if_pos hcond]
  · exact foldl_selStep_align tr names (wb, initState) i q

/-- Witness for the amended C8: the translated cell of the all-sheets run
is wrap+top, the same cell of the selected-sheets run falls in the allowed
presentation disjunction. -/
theorem mutated_presentation_witness :
    getSheetAlign (translate_excel_sheets trW wbW).1 0 (1, 1) = ⟨true, some "top"⟩ ∧
    (getSheetAlign (translate_selected_sheets trW wbW ["S"]).1 0 (1, 1)
        = getSheetAlign wbW 0 (1, 1) ∨
     getSheetAlign (translate_selected_sheets trW wbW ["S"]).1 0 (1, 1) = ⟨true, none⟩) :=
  mutated_presentation trW wbW ["S"] 0 (1, 1) (1, 1) (by decide) (by decide)

/-! ### Claim C9 (corrected) -/

/-- C9 counterexample: on the same workbook the all-sheets pipeline sets
column 1's width (layout stage) while the selected-sheets operation leaves
it unset, so the selected-sheets operation does not produce the same
per-sheet result as the all-sheets pipeline. -/
theorem selected_pipeline_cex :
    getSheetWidth (translate_excel_sheets trW wbW).1 0 1 = some 3 ∧
    getSheetWidth (translate_selected_sheets trW wbW ["S"]).1 0 1 = none := by decide

/-- C9 amended: the selected-sheets operation builds the same region index
and runs the same traversal for each selected existing sheet name but
omits the layout stage entirely: for a processed qualifying cell whose
trimmed text the translator succeeds on, both operations produce the same
bilingual value; non-qualifying cells are unchanged in both; and the
selected-sheets operation leaves every column width unmodified. -/
theorem selected_sheets_value_agreement (tr : String → Option String) (wb : Workbook)
    (names : List String) (i : Nat) (nm : String) (sh : Sheet) (p : Coord) (c : Nat)
    (hnd : (wb.sheets.map Prod.fst).Nodup)
    (hcount : names.count nm = 1)
    (hget : wb.sheets.get? i = some (nm, sh)) :
    (∀ s τ : String, sh.val p = .text s → strNonempty s = true → hasCJK s = true →
      p ∈ sheetCoords sh →
      processedAt (buildCovered sh.mergedRanges) (buildMasterOf sh.mergedRanges) p = true →
      tr (pyStrip s) = some τ →
      getSheetVal (translate_selected_sheets tr wb names).1 i p
        = .text (τ ++ "\n" ++ pyStrip s) ∧
      getSheetVal (translate_excel_sheets tr wb).1 i p = .text (τ ++ "\n" ++ pyStrip s)) ∧
    (qualifies (sh.val p) = false →
      getSheetVal (translate_selected_sheets tr wb names).1 i p = sh.val p ∧
      getSheetVal (translate_excel_sheets tr wb).1 i p = sh.val p) ∧
    getSheetWidth (translate_selected_sheets tr wb names).1 i c = sh.width c := by
  obtain ⟨st', hok', hsp⟩ := @sel_run_entry tr wb names i nm sh hnd hcount hget
  have hselval : ∀ x : Coord, getSheetVal (translate_selected_sheets tr wb names).1 i x
      = specNewValSel tr sh x := by
    intro x
    simp only [getSheetVal, hsp]
    exact walkSheetSel_val hok' i sh x
  refine ⟨?_, ?_, ?_⟩
  · intro s τ hv hne hcjk hmem hproc htr
    have hcond : cellCond sh p = true := by
      rw [cellCond, hv]
      simp [hmem, hproc, qualifies, hne, hcjk]
    constructor
    · rw [hselval p, specNewValSel, if_pos hcond, hv]
      simp only [textOf]
      rw [htr]
    · rw [tes_val tr wb i nm sh p hget, specNewVal, if_pos hcond, hv]
      simp [textOf, specTranslate, htr]
  · intro hq
    have hcond : cellCond sh p = false := by
      rw [cellCond]
      simp [hq]
    constructor
    · rw [hselval p, specNewValSel]
      simp [hcond]
    · rw [tes_val tr wb i nm sh p hget, specNewVal]
      simp [hcond]
  · have hw := foldl_selStep_width tr names (wb, initState) i c
    have horig : getSheetWidth wb i c = sh.width c := by
      simp only [getSheetWidth]
      rw [hget]
    rw [← horig]
    exact hw

/-- Witness for the amended C9 on the concrete workbook: both runs agree on
the translated cell and the untouched cell, and the selected run keeps the
unset width. -/
theorem selected_sheets_value_agreement_witness :
    getSheetVal (translate_selected_sheets trW wbW ["S"]).1 0 (1, 1)
      = .text ("Z" ++ "\n" ++ "中") ∧
    getSheetVal (translate_excel_sheets trW wbW).1 0 (1, 1)
      = .text ("Z" ++ "\n" ++ "中") ∧
    getSheetWidth (translate_selected_sheets trW wbW ["S"]).1 0 1 = none := by
  have h := selected_sheets_value_agreement trW wbW ["S"] 0 "S" shW (1, 1) 1
    (by decide) (by decide) rfl
  have h1 := h.1 "中" "Z" (by decide) (by decide) (by decide) (by decide) (by decide)
    (by decide)
  rw [show pyStrip "中" = "中" from by decide] at h1
  exact ⟨h1.1, h1.2, h.2.2.trans (by decide)⟩

end ExcelV2
